import Mathlib

/-!
Verification of the yansa filename-parser pipeline.

This file gives a shallow embedding, in Lean 4, of the core parsing modules
of the repository (Trimmer, Tokenizer, DateExtractor, StudioMatcher,
StudioCodeFinder, PerformerMatcher, FinalStageExtractor and the
`FilenameParser.parse` glue), and proves or refutes the specification
claims about them.

Conventions:
  - Python strings are embedded as `List Char` (named `Str` below); Python
    string indexing, slicing, `strip`, `lower`, `startswith`, `endswith`,
    `find` and `split` are modelled char-for-char for the ASCII range.
  - Regular expressions that are *hard-coded* in the source are embedded as
    executable character-level functions; regular expressions that come
    from external rule tables (date formats, studio-code patterns,
    performer patterns) are abstracted as matcher functions, since the
    rule-table JSON files are not part of the source tree.
  - Rule tables themselves (trimming strings, junk tokens, studio map,
    studio-code rules, stop words) are parameters of the embedded
    functions, mirroring the dictionary-loaded attributes of the classes.
-/

/-- Python strings, embedded as lists of characters. -/
abbrev Str := List Char

/-- Python `str.isspace` for a single character (ASCII whitespace). -/
def pyIsSpace (c : Char) : Bool :=
  (c == ' ') || (c == '\t') || (c == '\n') || (c == '\r') ||
  (c == '\x0b') || (c == '\x0c')

/-- Python `str.lstrip()` (no arguments: strip whitespace on the left). -/
def pyLStrip (s : Str) : Str := s.dropWhile pyIsSpace

/-- Python `str.rstrip()`. -/
def pyRStrip (s : Str) : Str := (s.reverse.dropWhile pyIsSpace).reverse

/-- Python `str.strip()`. -/
def pyStrip (s : Str) : Str := pyRStrip (pyLStrip s)

/-- Python `str.lower()` (ASCII case folding). -/
def pyLower (s : Str) : Str := s.map Char.toLower

/-- Python `str.upper()` (ASCII case folding). -/
def pyUpper (s : Str) : Str := s.map Char.toUpper

/-- ASCII decimal digit test (Python regex `\d`, ASCII range). -/
def pyIsDigit (c : Char) : Bool := ('0' ≤ c) && (c ≤ '9')

/-- ASCII letter test (Python regex `[a-zA-Z]`). -/
def pyIsAlpha (c : Char) : Bool :=
  (('a' ≤ c) && (c ≤ 'z')) || (('A' ≤ c) && (c ≤ 'Z'))

/-- Python regex `\w` (ASCII range): letters, digits and underscore. -/
def pyIsWord (c : Char) : Bool := pyIsAlpha c || pyIsDigit c || (c == '_')

/-- Value of an ASCII digit character. -/
def digitVal (c : Char) : Nat := c.toNat - '0'.toNat

/-- Parse a digit string into a natural number (Python `int` on digits). -/
def natOfDigits (s : Str) : Nat := s.foldl (fun a c => 10 * a + digitVal c) 0

/-- Decimal rendering of a natural number as characters, mirroring what a
Python f-string interpolation of an `int` produces. -/
def natChars (n : Nat) : Str :=
  if h : n < 10 then [Char.ofNat ('0'.toNat + n)]
  else natChars (n / 10) ++ [Char.ofNat ('0'.toNat + n % 10)]
decreasing_by exact Nat.div_lt_self (Nat.lt_of_lt_of_le (by omega) (Nat.le_of_not_lt h)) (by omega)

theorem natChars_ne_nil (n : Nat) : natChars n ≠ [] := by
  rw [natChars]
  split <;> simp

theorem natChars_lt_ten (n : Nat) (h : n < 10) :
    natChars n = [Char.ofNat ('0'.toNat + n)] := by
  rw [natChars]; simp [h]

theorem digit_char_isDigit (d : Nat) (h : d < 10) :
    pyIsDigit (Char.ofNat ('0'.toNat + d)) = true := by
  interval_cases d <;> decide

theorem natChars_all_digits (n : Nat) : ∀ c ∈ natChars n, pyIsDigit c = true := by
  induction n using Nat.strong_induction_on with
  | _ n ih =>
    rw [natChars]
    split
    next h =>
      intro c hc
      simp at hc
      subst hc
      exact digit_char_isDigit n h
    next h =>
      intro c hc
      simp at hc
      rcases hc with hc | hc
      · exact ih (n / 10)
          (Nat.div_lt_self (Nat.lt_of_lt_of_le (by omega) (Nat.le_of_not_lt h)) (by omega)) c hc
      · subst hc
        exact digit_char_isDigit (n % 10) (Nat.mod_lt _ (by omega))

theorem digitVal_ofNat (d : Nat) (h : d < 10) :
    digitVal (Char.ofNat ('0'.toNat + d)) = d := by
  interval_cases d <;> decide

theorem natOfDigits_append (a b : Str) :
    natOfDigits (a ++ b) = b.foldl (fun x c => 10 * x + digitVal c) (natOfDigits a) := by
  simp [natOfDigits, List.foldl_append]

theorem natOfDigits_natChars (n : Nat) : natOfDigits (natChars n) = n := by
  induction n using Nat.strong_induction_on with
  | _ n ih =>
    rw [natChars]
    split
    next h =>
      simp only [natOfDigits, List.foldl]
      rw [digitVal_ofNat n h]
      omega
    next h =>
      rw [natOfDigits_append]
      simp only [List.foldl]
      rw [ih (n / 10)
        (Nat.div_lt_self (Nat.lt_of_lt_of_le (by omega) (Nat.le_of_not_lt h)) (by omega)),
        digitVal_ofNat (n % 10) (Nat.mod_lt _ (by omega))]
      omega

/-! ### Numbered-placeholder scanner

`scanNums` extracts, left to right, the indices of all placeholder
substrings of the form an opening brace, the word token, one or more
decimal digits, and a closing brace.  It is the formal reading of the
claim's phrase, the count and indices of the numbered token placeholders
occurring in a pattern string. -/

/-- The word token as a character list. -/
def tokenChars : Str := ['t', 'o', 'k', 'e', 'n']

/-- The characters of a numbered placeholder (brace, token, digits, brace). -/
def phChars (n : Nat) : Str := '\x7b' :: (tokenChars ++ natChars n ++ ['\x7d'])

/-- Try to read the tail of a numbered placeholder, the part following the
opening brace: the word token, then one or more digits, then a closing
brace.  Returns the index and the remaining characters. -/
def tryPH (l : Str) : Option (Nat × Str) :=
  match l.dropPrefix? tokenChars with
  | none => none
  | some l2 =>
    let ds := l2.takeWhile pyIsDigit
    if ds = [] then none
    else match l2.dropWhile pyIsDigit with
      | c :: rest' => if c = '\x7d' then some (natOfDigits ds, rest') else none
      | [] => none

theorem tryPH_len {l : Str} {n : Nat} {rest : Str} (h : tryPH l = some (n, rest)) :
    rest.length < l.length := by
  unfold tryPH at h
  cases hdp : l.dropPrefix? tokenChars with
  | none => simp [hdp] at h
  | some l2 =>
    rw [hdp] at h
    simp only at h
    split at h
    · exact absurd h (by simp)
    · have hlen2 : l2.length ≤ l.length := by
        obtain ⟨p, hp, hl⟩ := List.dropPrefix?_eq_some_iff.mp hdp
        rw [hp]
        simp
      have hdw : (l2.dropWhile pyIsDigit).length ≤ l2.length :=
        (List.dropWhile_suffix pyIsDigit).length_le
      revert h
      split
      next c rest' heq =>
        intro h
        split at h
        · simp at h
          rw [heq] at hdw
          simp at hdw
          obtain ⟨h1, h2⟩ := h
          subst h2
          omega
        · exact absurd h (by simp)
      next =>
        intro h
        exact absurd h (by simp)

/-- Scan a character list for numbered placeholders, returning the list of
their indices in left-to-right order. -/
def scanNums (l : Str) : List Nat :=
  match l with
  | [] => []
  | c :: rest =>
    if c = '\x7b' then
      match h : tryPH rest with
      | some (n, rest') =>
        have : rest'.length < rest.length := tryPH_len h
        n :: scanNums rest'
      | none => scanNums rest
    else scanNums rest
termination_by l.length
decreasing_by
  · simp; omega
  · simp
  · simp

theorem scanNums_nil : scanNums [] = [] := by rw [scanNums]

theorem scanNums_cons_ne (c : Char) (l : Str) (h : c ≠ '\x7b') :
    scanNums (c :: l) = scanNums l := by
  rw [scanNums]; simp [h]

/-- Characters that can never start or continue into a placeholder match:
anything that is not an opening brace. -/
theorem scanNums_append_nobrace (a l : Str) (h : '\x7b' ∉ a) :
    scanNums (a ++ l) = scanNums l := by
  induction a with
  | nil => simp
  | cons c rest ih =>
    simp at h
    rw [List.cons_append, scanNums_cons_ne c _ (fun hc => h.1 hc.symm)]
    exact ih h.2

theorem dropPrefix_token_brace (l : Str) :
    List.dropPrefix? ('\x7b' :: l) tokenChars = none := by
  simp [List.dropPrefix?, tokenChars]

theorem tryPH_brace (l : Str) : tryPH ('\x7b' :: l) = none := by
  unfold tryPH
  rw [dropPrefix_token_brace]

theorem takeWhile_digits_append (ds : Str) (hds : ∀ c ∈ ds, pyIsDigit c = true)
    (c : Char) (hc : pyIsDigit c = false) (rest : Str) :
    (ds ++ c :: rest).takeWhile pyIsDigit = ds ∧
    (ds ++ c :: rest).dropWhile pyIsDigit = c :: rest := by
  induction ds with
  | nil => simp [List.takeWhile, List.dropWhile, hc]
  | cons d tl ih =>
    have hd : pyIsDigit d = true := hds d (by simp)
    have htl : ∀ x ∈ tl, pyIsDigit x = true := fun x hx => hds x (by simp [hx])
    obtain ⟨h1, h2⟩ := ih htl
    constructor
    · simp [List.takeWhile, hd, h1]
    · simp [List.dropWhile, hd, h2]

theorem tryPH_placeholder (n : Nat) (l : Str) :
    tryPH (tokenChars ++ (natChars n ++ ('\x7d' :: l))) = some (n, l) := by
  unfold tryPH
  have hdp : List.dropPrefix? (tokenChars ++ (natChars n ++ ('\x7d' :: l))) tokenChars
      = some (natChars n ++ ('\x7d' :: l)) := by
    simp [List.dropPrefix?_eq_some_iff]
  rw [hdp]
  simp only
  obtain ⟨h1, h2⟩ := takeWhile_digits_append (natChars n) (natChars_all_digits n)
    '\x7d' (by decide) l
  rw [h1, h2]
  simp [natChars_ne_nil n, natOfDigits_natChars n]

/-- Scanning a numbered placeholder followed by anything yields its index
followed by the scan of the remainder. -/
theorem scanNums_placeholder (n : Nat) (l : Str) :
    scanNums (phChars n ++ l) = n :: scanNums l := by
  have key := tryPH_placeholder n l
  rw [phChars, List.cons_append, scanNums]
  simp only [List.append_assoc]
  split
  next hc =>
    split
    next m rest' heq =>
      simp only [List.append_assoc, List.singleton_append] at heq
      rw [heq] at key
      simp at key
      simp [key]
    next heq =>
      simp only [List.append_assoc, List.singleton_append] at heq
      rw [heq] at key
      simp at key
  next hc => exact absurd trivial hc

/-! ## Trimmer (src/modules/trimmer.py)

`Trimmer.trim` repeatedly strips configured literal strings from both ends
of its argument until a full pass reports no change.  The `while changed`
loop is embedded with fuel; `trimLoop` returns `none` exactly when the
Python loop would not terminate (which happens, for every input, when the
empty string is among the trimming strings, since `startswith('')` is
always true and keeps the `changed` flag set).  Fuel `length + 1` is shown
sufficient below whenever the empty string is not configured. -/

namespace Trimmer

/-- The begin-of-string half of one pass of the `while changed` loop:
`for trim_str in self.trimming_strings: if trimmed.startswith(trim_str): ...`.
Returns the updated string and the `changed` flag. -/
def prefixPass (ts : List Str) (t : Str) (changed : Bool) : Str × Bool :=
  match ts with
  | [] => (t, changed)
  | p :: rest =>
    if p.isPrefixOf t then prefixPass rest (t.drop p.length) true
    else prefixPass rest t changed

/-- The end-of-string half of one pass: `if trimmed.endswith(trim_str):
trimmed = trimmed[:-len(trim_str)]`.  Note that for an empty trimming
string Python's `trimmed[:-0]` is the empty string. -/
def suffixPass (ts : List Str) (t : Str) (changed : Bool) : Str × Bool :=
  match ts with
  | [] => (t, changed)
  | p :: rest =>
    if p.isSuffixOf t then
      suffixPass rest (if p = [] then [] else t.take (t.length - p.length)) true
    else suffixPass rest t changed

/-- One iteration of the `while changed` loop body. -/
def onePass (ts : List Str) (t : Str) : Str × Bool :=
  let r1 := prefixPass ts t false
  suffixPass ts r1.1 r1.2

/-- The `while changed` loop, with fuel.  `none` models non-termination. -/
def trimLoop (ts : List Str) : Nat → Str → Option Str
  | 0, _ => none
  | fuel + 1, t =>
    let r := onePass ts t
    if r.2 then trimLoop ts fuel r.1 else some r.1

/-- `Trimmer.trim`: empty input is returned unchanged, otherwise the loop
runs until a pass makes no change. -/
def trim (ts : List Str) (t : Str) : Option Str :=
  if t = [] then some t else trimLoop ts (t.length + 1) t

theorem prefixPass_false_eq (ts : List Str) (t : Str) :
    ∀ t' , prefixPass ts t false = (t', false) → t' = t := by
  induction ts generalizing t with
  | nil => intro t' h; simp [prefixPass] at h; exact h.symm
  | cons p rest ih =>
    intro t' h
    rw [prefixPass] at h
    split at h
    · exfalso
      have : (prefixPass rest (t.drop p.length) true).2 = true := by
        clear h ih
        generalize t.drop p.length = u
        induction rest generalizing u with
        | nil => simp [prefixPass]
        | cons q qs ihq =>
          rw [prefixPass]
          split
          · exact ihq _
          · exact ihq _
      rw [h] at this
      simp at this
    · exact ih t t' h

theorem prefixPass_true (ts : List Str) (t : Str) :
    (prefixPass ts t true).2 = true := by
  induction ts generalizing t with
  | nil => simp [prefixPass]
  | cons p rest ih =>
    rw [prefixPass]
    split
    · exact ih _
    · exact ih _

theorem suffixPass_true (ts : List Str) (t : Str) :
    (suffixPass ts t true).2 = true := by
  induction ts generalizing t with
  | nil => simp [suffixPass]
  | cons p rest ih =>
    rw [suffixPass]
    split
    · exact ih _
    · exact ih _

theorem suffixPass_false_eq (ts : List Str) (t : Str) :
    ∀ t', suffixPass ts t false = (t', false) → t' = t := by
  induction ts generalizing t with
  | nil => intro t' h; simp [suffixPass] at h; exact h.symm
  | cons p rest ih =>
    intro t' h
    rw [suffixPass] at h
    split at h
    · exfalso
      have := suffixPass_true rest (if p = [] then [] else t.take (t.length - p.length))
      rw [h] at this
      simp at this
    · exact ih t t' h

/-- A pass that reports no change leaves the string unchanged. -/
theorem onePass_false_eq (ts : List Str) (t t' : Str)
    (h : onePass ts t = (t', false)) : t' = t := by
  unfold onePass at h
  rcases hp : prefixPass ts t false with ⟨t1, c1⟩
  rw [hp] at h
  cases c1 with
  | true =>
    have := suffixPass_true ts t1
    rw [h] at this
    simp at this
  | false =>
    have h1 := prefixPass_false_eq ts t t1 hp
    have h2 := suffixPass_false_eq ts t1 t' h
    rw [h2, h1]

theorem prefixPass_len (ts : List Str) (hts : [] ∉ ts) (t : Str) (c : Bool) :
    (prefixPass ts t c).1.length ≤ t.length ∧
    ((prefixPass ts t c).2 = true → c = true ∨ (prefixPass ts t c).1.length < t.length) := by
  induction ts generalizing t c with
  | nil => simp [prefixPass]
  | cons p rest ih =>
    have hrest : [] ∉ rest := fun hm => hts (List.mem_cons_of_mem _ hm)
    have hp : p ≠ [] := fun he => hts (he ▸ List.mem_cons_self _ _)
    rw [prefixPass]
    by_cases hpre : p.isPrefixOf t
    · rw [if_pos hpre]
      obtain ⟨ihl, _⟩ := ih hrest (t.drop p.length) true
      have hplen : 0 < p.length := List.length_pos.mpr hp
      have hple : p.length ≤ t.length :=
        (List.isPrefixOf_iff_prefix.mp hpre).length_le
      have hdl : (t.drop p.length).length < t.length := by
        simp [List.length_drop]
        omega
      constructor
      · omega
      · intro _
        right
        omega
    · rw [if_neg hpre]
      exact ih hrest t c

theorem suffixPass_len (ts : List Str) (hts : [] ∉ ts) (t : Str) (c : Bool) :
    (suffixPass ts t c).1.length ≤ t.length ∧
    ((suffixPass ts t c).2 = true → c = true ∨ (suffixPass ts t c).1.length < t.length) := by
  induction ts generalizing t c with
  | nil => simp [suffixPass]
  | cons p rest ih =>
    have hrest : [] ∉ rest := fun hm => hts (List.mem_cons_of_mem _ hm)
    have hp : p ≠ [] := fun he => hts (he ▸ List.mem_cons_self _ _)
    rw [suffixPass]
    by_cases hsuf : p.isSuffixOf t
    · rw [if_pos hsuf, if_neg hp]
      obtain ⟨ihl, _⟩ := ih hrest (t.take (t.length - p.length)) true
      have hplen : 0 < p.length := List.length_pos.mpr hp
      have hple : p.length ≤ t.length :=
        (List.isSuffixOf_iff_suffix.mp hsuf).length_le
      have htl : (t.take (t.length - p.length)).length < t.length := by
        simp [List.length_take]
        omega
      constructor
      · omega
      · intro _
        right
        omega
    · rw [if_neg hsuf]
      exact ih hrest t c

/-- When the empty string is not configured, a pass that reports a change
strictly shortens the string. -/
theorem onePass_len (ts : List Str) (hts : [] ∉ ts) (t t' : Str)
    (h : onePass ts t = (t', true)) : t'.length < t.length := by
  unfold onePass at h
  rcases hp : prefixPass ts t false with ⟨t1, c1⟩
  rw [hp] at h
  obtain ⟨hpl, hpc⟩ := prefixPass_len ts hts t false
  rw [hp] at hpl hpc
  obtain ⟨hsl, hsc⟩ := suffixPass_len ts hts t1 c1
  rw [h] at hsl hsc
  simp only at hpl hpc hsl hsc
  cases c1 with
  | true =>
    rcases hpc (by trivial) with h2 | h2
    · exact absurd h2 (by simp)
    · omega
  | false =>
    have h1 := prefixPass_false_eq ts t t1 hp
    subst h1
    rcases hsc (by trivial) with h2 | h2
    · exact absurd h2 (by simp)
    · exact h2

/-- With the empty string absent from the table, fuel one more than the
string length always suffices: the loop terminates. -/
theorem trimLoop_total (ts : List Str) (hts : [] ∉ ts) :
    ∀ fuel t, t.length < fuel → ∃ r, trimLoop ts fuel t = some r := by
  intro fuel
  induction fuel with
  | zero => intro t h; omega
  | succ n ih =>
    intro t hlt
    rw [trimLoop]
    rcases hp : onePass ts t with ⟨t', c⟩
    cases c with
    | false => exact ⟨t', by simp [hp]⟩
    | true =>
      have hdec := onePass_len ts hts t t' hp
      obtain ⟨r, hr⟩ := ih t' (by omega)
      exact ⟨r, by simp [hp, hr]⟩

/-- The value returned by the loop is a fixpoint of a single pass. -/
theorem trimLoop_fix (ts : List Str) :
    ∀ fuel t r, trimLoop ts fuel t = some r → onePass ts r = (r, false) := by
  intro fuel
  induction fuel with
  | zero => intro t r h; simp [trimLoop] at h
  | succ n ih =>
    intro t r h
    rw [trimLoop] at h
    rcases hp : onePass ts t with ⟨t', c⟩
    rw [hp] at h
    cases c with
    | true => exact ih t' r (by simpa using h)
    | false =>
      simp at h
      have := onePass_false_eq ts t t' hp
      subst this
      rw [← h]
      exact hp

theorem trim_total (ts : List Str) (hts : [] ∉ ts) (s : Str) :
    ∃ r, trim ts s = some r := by
  unfold trim
  split
  · exact ⟨s, rfl⟩
  · exact trimLoop_total ts hts (s.length + 1) s (by omega)

theorem trim_fix (ts : List Str) (s r : Str)
    (h : trim ts s = some r) : trim ts r = some r := by
  unfold trim at h ⊢
  split at h
  · simp at h
    subst h
    next he => simp [he]
  · have hfix := trimLoop_fix ts _ _ _ h
    split
    · rfl
    · rw [trimLoop]
      simp [hfix]

end Trimmer

/-- C9.  Idempotence of `Trimmer.trim`: for every string `s` (and any
loaded trimming-string table not containing the empty string, for which
the Python loop would not terminate at all), `trim (trim s) = trim s`:
the result of `trim` is a fixpoint of `trim`. -/
theorem C9_trimmer_idempotent (ts : List Str) (s : Str) (hts : [] ∉ ts) :
    ∃ r, Trimmer.trim ts s = some r ∧ Trimmer.trim ts r = some r := by
  obtain ⟨r, hr⟩ := Trimmer.trim_total ts hts s
  exact ⟨r, hr, Trimmer.trim_fix ts s r hr⟩

/-- Witness for C9 at a concrete trimming table and input: trimming the
string dash space dash Title dash space dash with table
[dash, space] reaches the fixpoint Title. -/
theorem C9_trimmer_idempotent_witness :
    ([] ∉ [("-").data, (" ").data]) ∧
    ∃ r, Trimmer.trim [("-").data, (" ").data] ("- -Title- -").data = some r ∧
      Trimmer.trim [("-").data, (" ").data] r = some r :=
  ⟨by decide, C9_trimmer_idempotent [("-").data, (" ").data] ("- -Title- -").data (by decide)⟩

/-! ## Data model

The `Token` record mirrors the `Token` dataclass of
src/modules/tokenizer.py.  The `ParseResult` record carries the fields of
`TokenizationResult` together with the extraction fields.

Modelled from the spec: the `TokenizationResult` dataclass that is present
in src/modules/tokenizer.py declares only `original`, `cleaned`,
`pattern`, `tokens` and `studio`, yet every downstream stage in the source
tree reads and writes `title`, `sequence`, `group` and `studio_code` on
the same record (and the repository's own pipeline test asserts on them);
the current, richer version of the dataclass is evidently missing from the
tree.  Those four fields are therefore modelled from the spec's ParseResult
description (spec section 3). -/

/-- Token type tags, kept as strings as in the source. -/
def tyPath : Str := "path".data

def tyBracket : Str := "bracket".data

def tyParenthesis : Str := "parenthesis".data

def tyCurly : Str := "curly".data

def tyText : Str := "text".data

def tyDate : Str := "date".data

def tyStudio : Str := "studio".data

def tyStudioCode : Str := "studio_code".data

def tyPerformers : Str := "performers".data

def tySequence : Str := "sequence".data

def tyGroup : Str := "group".data

def tyTitle : Str := "title".data

/-- A token: value, type tag and position in the cleaned string. -/
structure Token where
  value : Str
  ty : Str
  position : Nat
deriving DecidableEq, Repr

/-- A token type still generic, in the sense of the template invariant. -/
def Token.isGeneric (t : Token) : Bool :=
  (t.ty == tyText) || (t.ty == tyBracket) || (t.ty == tyParenthesis) || (t.ty == tyCurly)

/-- Python dict over string keys with natural-number values, as an
insertion-ordered association list (updates keep the original slot). -/
def dictGet (m : List (Str × Nat)) (k : Str) : Option Nat :=
  (m.find? (fun kv => kv.1 == k)).map (fun kv => kv.2)

def dictHas (m : List (Str × Nat)) (k : Str) : Bool :=
  m.any (fun kv => kv.1 == k)

def dictSet (m : List (Str × Nat)) (k : Str) (v : Nat) : List (Str × Nat) :=
  if dictHas m k then m.map (fun kv => if kv.1 == k then (k, v) else kv)
  else m ++ [(k, v)]

/-- The pipeline result record (see the module comment above about the
fields modelled from the spec). -/
structure ParseResult where
  original : Str
  cleaned : Str
  pattern : Option Str := none
  tokens : Option (List Token) := none
  studio : Option Str := none
  title : Option Str := none
  sequence : Option (List (Str × Nat)) := none
  group : Option Str := none
  studio_code : Option Str := none
deriving DecidableEq, Repr

/-- Python truthiness of an optional string: `None` and the empty string
are falsy. -/
def optTruthy (o : Option Str) : Bool :=
  match o with
  | none => false
  | some s => !s.isEmpty

/-! ## Tokenizer (src/modules/tokenizer.py)

The segment regex partitions the input into bracket, parenthesis and curly
groups and maximal runs of other characters; characters that belong to no
alternative (stray closers, unmatched openers) are skipped, exactly as
`finditer` does. -/

namespace Tokenizer

/-- Split a list at the first occurrence of the closing character:
the bracket alternatives of the segment regex take everything up to the
first closer. -/
def takeUntil (close : Char) : Str → Option (Str × Str)
  | [] => none
  | c :: rest =>
    if c = close then some ([], rest)
    else match takeUntil close rest with
      | none => none
      | some (a, b) => some (c :: a, b)

theorem takeUntil_len {close : Char} {l a b : Str} (h : takeUntil close l = some (a, b)) :
    a.length + b.length + 1 = l.length := by
  induction l generalizing a with
  | nil => simp [takeUntil] at h
  | cons c rest ih =>
    rw [takeUntil] at h
    split at h
    · simp at h
      obtain ⟨h1, h2⟩ := h
      subst h1; subst h2
      simp
    · revert h
      split
      · intro h; simp at h
      next a' b' heq =>
        intro h
        simp at h
        obtain ⟨h1, h2⟩ := h
        subst h1
        subst h2
        have := ih heq
        simp
        omega

/-- Delimiter characters of the segment regex. -/
def isSegDelim (c : Char) : Bool :=
  (c == '[') || (c == ']') || (c == '(') || (c == ')') || (c == '\x7b') || (c == '\x7d')

/-- Kinds of delimited groups. -/
inductive GKind where
  | br | par | cu
deriving DecidableEq, Repr

def GKind.ty : GKind → Str
  | .br => tyBracket
  | .par => tyParenthesis
  | .cu => tyCurly

/-- One segment produced by the segment regex: a delimited group (with its
raw inner text) or a plain run, each with its start offset. -/
inductive Seg where
  | group (kind : GKind) (inner : Str) (start : Nat)
  | plain (cs : Str) (start : Nat)
deriving DecidableEq, Repr

/-- The `finditer` loop of the segment regex. -/
def segmentize : Str → Nat → List Seg
  | [], _ => []
  | c :: rest, pos =>
    if c = '[' then
      match h : takeUntil ']' rest with
      | some (inner, rest') =>
        have : rest'.length < rest.length + 1 := by
          have := takeUntil_len h; omega
        Seg.group .br inner pos :: segmentize rest' (pos + inner.length + 2)
      | none => segmentize rest (pos + 1)
    else if c = '(' then
      match h : takeUntil ')' rest with
      | some (inner, rest') =>
        have : rest'.length < rest.length + 1 := by
          have := takeUntil_len h; omega
        Seg.group .par inner pos :: segmentize rest' (pos + inner.length + 2)
      | none => segmentize rest (pos + 1)
    else if c = '\x7b' then
      match h : takeUntil '\x7d' rest with
      | some (inner, rest') =>
        have : rest'.length < rest.length + 1 := by
          have := takeUntil_len h; omega
        Seg.group .cu inner pos :: segmentize rest' (pos + inner.length + 2)
      | none => segmentize rest (pos + 1)
    else if hdelim : isSegDelim c then
      segmentize rest (pos + 1)
    else
      let run := (c :: rest).takeWhile (fun d => !isSegDelim d)
      let rest' := (c :: rest).dropWhile (fun d => !isSegDelim d)
      have : rest'.length < rest.length + 1 := by
        have hr : rest' = rest.dropWhile (fun d => !isSegDelim d) := by
          simp [rest', List.dropWhile_cons, hdelim]
        have hle := (List.dropWhile_suffix (fun d => !isSegDelim d) (l := rest)).length_le
        rw [hr]
        omega
      Seg.plain run pos :: segmentize rest' (pos + run.length)
termination_by cs _ => cs.length

/-- The `finditer` loop of the dash regex: find the leftmost dash delimiter
(whitespace dash whitespace, preferred; then whitespace dash; then dash
whitespace), returning text before it, the delimiter and the remainder. -/
def findDash : Str → Option (Str × Str × Str)
  | [] => none
  | a :: rest =>
    match rest with
    | [] => none
    | b :: rest2 =>
      if pyIsSpace a && (b == '-') then
        match rest2 with
        | c :: rest3 =>
          if pyIsSpace c then some ([], [a, b, c], rest3)
          else some ([], [a, b], rest2)
        | [] => some ([], [a, b], [])
      else if (a == '-') && pyIsSpace b then
        some ([], [a, b], rest2)
      else
        match findDash rest with
        | none => none
        | some (pre, d, after) => some (a :: pre, d, after)

theorem findDash_len {l : Str} :
    ∀ {pre d after : Str}, findDash l = some (pre, d, after) →
      pre.length + d.length + after.length = l.length ∧ 0 < d.length := by
  induction l with
  | nil => intro pre d after h; simp [findDash] at h
  | cons a rest ih =>
    intro pre d after h
    cases rest with
    | nil => simp [findDash] at h
    | cons b rest2 =>
      rw [findDash.eq_def] at h
      simp only at h
      by_cases h1 : pyIsSpace a && (b == '-')
      · rw [if_pos h1] at h
        cases rest2 with
        | nil =>
          simp at h
          obtain ⟨hp, hd, ha⟩ := h
          subst hp; subst hd; subst ha
          refine ⟨by first | (simp; omega) | simp, by simp⟩
        | cons c rest3 =>
          simp only at h
          by_cases h2 : pyIsSpace c
          · rw [if_pos h2] at h
            simp at h
            obtain ⟨hp, hd, ha⟩ := h
            subst hp; subst hd; subst ha
            refine ⟨by first | (simp; omega) | simp, by simp⟩
          · rw [if_neg h2] at h
            simp at h
            obtain ⟨hp, hd, ha⟩ := h
            subst hp; subst hd; subst ha
            refine ⟨by first | (simp; omega) | simp, by simp⟩
      · rw [if_neg h1] at h
        by_cases h2 : (a == '-') && pyIsSpace b
        · rw [if_pos h2] at h
          simp at h
          obtain ⟨hp, hd, ha⟩ := h
          subst hp; subst hd; subst ha
          refine ⟨by first | (simp; omega) | simp, by simp⟩
        · rw [if_neg h2] at h
          revert h
          split
          · intro h; simp at h
          next pre2 d2 after2 heq =>
            intro h
            simp at h
            obtain ⟨hp, hd, ha⟩ := h
            subst hp; subst hd; subst ha
            obtain ⟨hl, hdl⟩ := ih heq
            constructor
            · simp at hl ⊢
              omega
            · exact hdl

/-- Decompose a plain segment into (text, following delimiter) pieces; the
final piece carries an empty delimiter (the tail after the last dash). -/
def dashPieces (cs : Str) : List (Str × Str) :=
  match h : findDash cs with
  | none => [(cs, [])]
  | some (pre, d, after) =>
    have : after.length < cs.length := by
      obtain ⟨hl, hd⟩ := findDash_len h
      omega
    (pre, d) :: dashPieces after
termination_by cs.length

/-- Tokens extracted from the pieces of a plain segment (`_extract_tokens`,
text branch): each piece whose stripped text is non-empty yields a `text`
token positioned at the segment start plus the piece offset plus the
leading whitespace. -/
def plainTokens : List (Str × Str) → Nat → List Token
  | [], _ => []
  | (part, d) :: rest, start =>
    let stripped := pyStrip part
    let lead := part.length - (pyLStrip part).length
    (if stripped = [] then [] else [⟨stripped, tyText, start + lead⟩])
      ++ plainTokens rest (start + part.length + d.length)

/-- Tokens of one segment (`_extract_tokens` loop body). -/
def segTokens : Seg → List Token
  | .group k inner start =>
    let s := pyStrip inner
    if s = [] then []
    else
      let lead := inner.length - (pyLStrip inner).length
      [⟨s, k.ty, start + 1 + lead⟩]
  | .plain cs start => plainTokens (dashPieces cs) start

/-- `Tokenizer._extract_tokens`. -/
def extractTokens (filename : Str) : List Token :=
  (segmentize filename 0).flatMap segTokens

/-- Spaces, as written by the pattern generator's space padding. -/
def spaces (n : Nat) : Str := List.replicate n ' '

/-- The junk marker written into patterns. -/
def junkChars : Str := '\x7b' :: ("junk".data ++ ['\x7d'])

/-- Wrapping of a numbered placeholder in the original group glyphs. -/
def groupWrap : GKind → Nat → Str
  | .br, n => '[' :: (phChars n ++ [']'])
  | .par, n => '(' :: (phChars n ++ [')'])
  | .cu, n => '\x7b' :: (phChars n ++ ['\x7d'])

/-- Wrapping of the junk marker in the original group glyphs. -/
def groupJunk : GKind → Str
  | .br => '[' :: (junkChars ++ [']'])
  | .par => '(' :: (junkChars ++ [')'])
  | .cu => '\x7b' :: (junkChars ++ ['\x7d'])

/-- The `is_junk and all_token_idx < len(is_junk) and is_junk[all_token_idx]`
guard of `_generate_pattern`. -/
def junkAt (jl : List Bool) (i : Nat) : Bool := jl.getD i false

/-- Pattern pieces of a plain segment (`_generate_pattern`, text branch),
threading the running token counters; returns the emitted characters and
the updated (all, real) counters. -/
def plainParts : List (Str × Str) → List Bool → Nat → Nat → Str × Nat × Nat
  | [], _, aIdx, rIdx => ([], aIdx, rIdx)
  | (part, d) :: rest, jl, aIdx, rIdx =>
    if part = [] then
      let r := plainParts rest jl aIdx rIdx
      (d ++ r.1, r.2)
    else if pyStrip part = [] then
      let r := plainParts rest jl aIdx rIdx
      (part ++ d ++ r.1, r.2)
    else
      let lead := part.length - (pyLStrip part).length
      let trail := part.length - (pyRStrip part).length
      if junkAt jl aIdx then
        let r := plainParts rest jl (aIdx + 1) rIdx
        (spaces lead ++ junkChars ++ spaces trail ++ d ++ r.1, r.2)
      else
        let r := plainParts rest jl (aIdx + 1) (rIdx + 1)
        (spaces lead ++ phChars rIdx ++ spaces trail ++ d ++ r.1, r.2)

/-- The segment loop of `_generate_pattern`, emitting the concatenation of
the appended parts. -/
def patternGo : List Seg → List Bool → Nat → Nat → Str
  | [], _, _, _ => []
  | .group k inner _ :: rest, jl, aIdx, rIdx =>
    if pyStrip inner = [] then patternGo rest jl aIdx rIdx
    else if junkAt jl aIdx then
      groupJunk k ++ patternGo rest jl (aIdx + 1) rIdx
    else
      groupWrap k rIdx ++ patternGo rest jl (aIdx + 1) (rIdx + 1)
  | .plain cs _ :: rest, jl, aIdx, rIdx =>
    let r := plainParts (dashPieces cs) jl aIdx rIdx
    r.1 ++ patternGo rest jl r.2.1 r.2.2

/-- `Tokenizer._generate_pattern`: the joined parts stripped, with the
path placeholder and separator prefixed when a truthy path was found. -/
def generatePattern (tokenSource : Str) (jl : List Bool)
    (path : Option (Str × Char)) : Str :=
  let base := pyStrip (patternGo (segmentize tokenSource 0) jl 0 0)
  match path with
  | some (p, sep) =>
    if p = [] then base
    else ('\x7b' :: ("path".data ++ ['\x7d'])) ++ [sep] ++ base
  | none => base

/-- `Tokenizer._extract_path`: split at the rightmost slash or backslash.
Returns the filename part and, when a separator exists, the path prefix
with the separator character. -/
def extractPath (filepath : Str) : Str × Option (Str × Char) :=
  match findLastSep filepath 0 none with
  | none => (filepath, none)
  | some i =>
    (filepath.drop (i + 1), some (filepath.take i, filepath.getD i ' '))
where
  /-- Rightmost index holding a slash or backslash. -/
  findLastSep : Str → Nat → Option Nat → Option Nat
    | [], _, acc => acc
    | c :: rest, i, acc =>
      if c = '/' ∨ c = '\\' then findLastSep rest (i + 1) (some i)
      else findLastSep rest (i + 1) acc

/-- Total wrapper around `Trimmer.trim` used inside the tokenizer; the
default branch is only reachable when the trimming table contains the
empty string, where the Python code does not terminate at all. -/
def trimF (ts : List Str) (t : Str) : Str := (Trimmer.trim ts t).getD t

/-- `Tokenizer._trim_token`. -/
def trimToken (ts : List Str) (t : Token) : Token :=
  ⟨trimF ts t.value, t.ty, t.position⟩

/-- `Tokenizer._is_junk_token`: exact membership in the junk list. -/
def isJunkToken (junk : List Str) (v : Str) : Bool := junk.contains v

/-- `Tokenizer.tokenize` (with `cleaned` provided, as the pipeline does).
Parameters `junk` and `ts` are the junk-token and trimming tables. -/
def tokenize (junk : List Str) (ts : List Str) (original cleaned : Str) : ParseResult :=
  let fp := extractPath cleaned
  let filename := fp.1
  let pathToken : List Token :=
    match fp.2 with
    | some (p, _) => if p = [] then [] else [⟨p, tyPath, 0⟩]
    | none => []
  let allTokens := extractTokens filename
  let jl := allTokens.map (fun t => isJunkToken junk t.value)
  let pattern := generatePattern filename jl fp.2
  let filtered := allTokens.filter (fun t => !isJunkToken junk t.value)
  let trimmed := filtered.map (trimToken ts)
  { original := original
    cleaned := cleaned
    pattern := some pattern
    tokens := some (pathToken ++ trimmed) }

end Tokenizer

/-! ### Scanner lemmas for the shapes emitted by the pattern generator -/

namespace Tokenizer

theorem scanNums_junk (l : Str) : scanNums (junkChars ++ l) = scanNums l := by
  rw [junkChars, List.cons_append, scanNums]
  rw [if_pos rfl]
  have hnone : tryPH (("junk".data ++ ['\x7d']) ++ l) = none := by
    unfold tryPH
    have hdp : List.dropPrefix? (("junk".data ++ ['\x7d']) ++ l) tokenChars = none := by
      simp [List.dropPrefix?, tokenChars]
    rw [hdp]
  split
  next heq => rw [heq] at hnone; simp at hnone
  next =>
    apply scanNums_append_nobrace
    decide

end Tokenizer

namespace Tokenizer

theorem scanNums_brace_junk (l : Str) :
    scanNums ('\x7b' :: (junkChars ++ l)) = scanNums l := by
  rw [scanNums, if_pos rfl]
  have hnone : tryPH (junkChars ++ l) = none := by
    rw [junkChars, List.cons_append]
    exact tryPH_brace _
  split
  next heq => rw [heq] at hnone; simp at hnone
  next => exact scanNums_junk l

theorem scanNums_brace_ph (n : Nat) (l : Str) :
    scanNums ('\x7b' :: (phChars n ++ l)) = n :: scanNums l := by
  rw [scanNums, if_pos rfl]
  have hnone : tryPH (phChars n ++ l) = none := by
    rw [phChars, List.cons_append]
    exact tryPH_brace _
  split
  next heq => rw [heq] at hnone; simp at hnone
  next => exact scanNums_placeholder n l

theorem scanNums_groupWrap (k : GKind) (n : Nat) (l : Str) :
    scanNums (groupWrap k n ++ l) = n :: scanNums l := by
  cases k with
  | br =>
    show scanNums ('[' :: (phChars n ++ [']']) ++ l) = _
    rw [List.cons_append, scanNums_cons_ne _ _ (by decide), List.append_assoc,
      List.singleton_append, scanNums_placeholder, scanNums_cons_ne _ _ (by decide)]
  | par =>
    show scanNums ('(' :: (phChars n ++ [')']) ++ l) = _
    rw [List.cons_append, scanNums_cons_ne _ _ (by decide), List.append_assoc,
      List.singleton_append, scanNums_placeholder, scanNums_cons_ne _ _ (by decide)]
  | cu =>
    show scanNums ('\x7b' :: (phChars n ++ ['\x7d']) ++ l) = _
    rw [List.cons_append, List.append_assoc, List.singleton_append, scanNums_brace_ph,
      scanNums_cons_ne _ _ (by decide)]

theorem scanNums_groupJunk (k : GKind) (l : Str) :
    scanNums (groupJunk k ++ l) = scanNums l := by
  cases k with
  | br =>
    show scanNums ('[' :: (junkChars ++ [']']) ++ l) = _
    rw [List.cons_append, scanNums_cons_ne _ _ (by decide), List.append_assoc,
      List.singleton_append, scanNums_junk, scanNums_cons_ne _ _ (by decide)]
  | par =>
    show scanNums ('(' :: (junkChars ++ [')']) ++ l) = _
    rw [List.cons_append, scanNums_cons_ne _ _ (by decide), List.append_assoc,
      List.singleton_append, scanNums_junk, scanNums_cons_ne _ _ (by decide)]
  | cu =>
    show scanNums ('\x7b' :: (junkChars ++ ['\x7d']) ++ l) = _
    rw [List.cons_append, List.append_assoc, List.singleton_append, scanNums_brace_junk,
      scanNums_cons_ne _ _ (by decide)]

theorem spaces_nobrace (n : Nat) : '\x7b' ∉ spaces n := by
  intro h
  rw [spaces] at h
  have := List.eq_of_mem_replicate h
  simp at this

theorem scanNums_spaces (n : Nat) (l : Str) : scanNums (spaces n ++ l) = scanNums l :=
  scanNums_append_nobrace _ _ (spaces_nobrace n)

end Tokenizer

/-! ### Scanning is unaffected by trailing whitespace (needed for the final
strip of the generated pattern). -/

/-- Appending non-word material cannot complete a prefix match of a list of
non-whitespace characters. -/
theorem dropPrefix_append_ws (p : Str) (hp : ∀ c ∈ p, pyIsSpace c = false)
    (w : Str) (hw : ∀ c ∈ w, pyIsSpace c = true) :
    ∀ rest : Str, List.dropPrefix? (rest ++ w) p =
      (List.dropPrefix? rest p).map (fun l2 => l2 ++ w) := by
  induction p with
  | nil => intro rest; simp [List.dropPrefix?]
  | cons ph pt ih =>
    intro rest
    cases rest with
    | nil =>
      simp only [List.nil_append]
      cases w with
      | nil => simp [List.dropPrefix?]
      | cons wc wt =>
        rw [List.dropPrefix?]
        simp only [List.dropPrefix?, Option.map]
        have h1 : pyIsSpace wc = true := hw wc (by simp)
        have h2 : pyIsSpace ph = false := hp ph (by simp)
        have hne : (wc == ph) = false := by
          cases hbe : wc == ph
          · rfl
          · exfalso
            have : wc = ph := by simpa using hbe
            rw [this] at h1
            rw [h1] at h2
            exact absurd h2 (by simp)
        rw [hne]
        simp
    | cons rh rt =>
      rw [List.cons_append, List.dropPrefix?, List.dropPrefix?]
      have hpt : ∀ c ∈ pt, pyIsSpace c = false := fun c hc => hp c (by simp [hc])
      cases hbe : rh == ph
      · simp
      · simp only [Bool.true_and]
        exact ih hpt rt

theorem tokenChars_not_ws : ∀ c ∈ tokenChars, pyIsSpace c = false := by decide

/-- Appending whitespace to the scanner's lookahead input changes a
successful placeholder parse only by carrying the whitespace into the
remainder, and cannot create a parse out of a failure. -/
theorem tryPH_append_ws (w : Str) (hw : ∀ c ∈ w, pyIsSpace c = true) (rest : Str) :
    tryPH (rest ++ w) = (tryPH rest).map (fun nr => (nr.1, nr.2 ++ w)) := by
  unfold tryPH
  rw [dropPrefix_append_ws tokenChars tokenChars_not_ws w hw rest]
  cases hdp : List.dropPrefix? rest tokenChars with
  | none => simp
  | some l2 =>
    simp only [Option.map]
    have hsplit : (l2 ++ w).takeWhile pyIsDigit = l2.takeWhile pyIsDigit ∧
        ((l2 ++ w).dropWhile pyIsDigit = l2.dropWhile pyIsDigit ++ w ∨
         (l2.dropWhile pyIsDigit = [] ∧ (l2 ++ w).dropWhile pyIsDigit = w)) := by
      clear hdp
      induction l2 with
      | nil =>
        simp only [List.nil_append, List.takeWhile_nil, List.dropWhile_nil]
        constructor
        · cases w with
          | nil => simp
          | cons wc wt =>
            rw [List.takeWhile_cons]
            have h1 : pyIsSpace wc = true := hw wc (by simp)
            have : pyIsDigit wc = false := by
              cases hd : pyIsDigit wc
              · rfl
              · exfalso
                have hc1 : wc = ' ' ∨ wc = '\t' ∨ wc = '\n' ∨ wc = '\r' ∨
                    wc = '\x0b' ∨ wc = '\x0c' := by
                  simp [pyIsSpace] at h1
                  tauto
                rcases hc1 with h | h | h | h | h | h <;> (rw [h] at hd; simp [pyIsDigit] at hd)
            simp [this]
        · right
          constructor
          · trivial
          · cases w with
            | nil => simp
            | cons wc wt =>
              rw [List.dropWhile_cons]
              have h1 : pyIsSpace wc = true := hw wc (by simp)
              have : pyIsDigit wc = false := by
                cases hd : pyIsDigit wc
                · rfl
                · exfalso
                  have hc1 : wc = ' ' ∨ wc = '\t' ∨ wc = '\n' ∨ wc = '\r' ∨
                      wc = '\x0b' ∨ wc = '\x0c' := by
                    simp [pyIsSpace] at h1
                    tauto
                  rcases hc1 with h | h | h | h | h | h <;> (rw [h] at hd; simp [pyIsDigit] at hd)
              simp [this]
      | cons c l2t ih2 =>
        rw [List.cons_append, List.takeWhile_cons, List.takeWhile_cons,
          List.dropWhile_cons, List.dropWhile_cons]
        cases hd : pyIsDigit c
        · simp
        · simp only [if_pos rfl]
          obtain ⟨iht, ihd⟩ := ih2
          constructor
          · rw [iht]
          · exact ihd
    obtain ⟨ht, hd⟩ := hsplit
    rw [ht]
    by_cases hds : l2.takeWhile pyIsDigit = []
    · simp [hds]
    · rw [if_neg hds, if_neg hds]
      rcases hd with hd | ⟨hnil, hd⟩
      · rw [hd]
        cases hcase : l2.dropWhile pyIsDigit with
        | nil =>
          simp only [List.nil_append]
          cases w with
          | nil => simp
          | cons wc wt =>
            have h1 : pyIsSpace wc = true := hw wc (by simp)
            have hne : ¬ wc = '\x7d' := by
              intro he
              rw [he] at h1
              simp [pyIsSpace] at h1
            simp only [if_neg hne]
        | cons dc dt =>
          simp only [List.cons_append]
          by_cases hbrace : dc = '\x7d'
          · subst hbrace
            simp
          · simp only [if_neg hbrace]
      · rw [hd, hnil]
        cases w with
        | nil => simp
        | cons wc wt =>
          have h1 : pyIsSpace wc = true := hw wc (by simp)
          have hne : ¬ wc = '\x7d' := by
            intro he
            rw [he] at h1
            simp [pyIsSpace] at h1
          simp only [if_neg hne]

/-- Trailing whitespace does not affect the placeholder scan. -/
theorem scanNums_append_ws (a w : Str) (hw : ∀ c ∈ w, pyIsSpace c = true) :
    scanNums (a ++ w) = scanNums a := by
  induction a using scanNums.induct with
  | case1 =>
    simp only [List.nil_append, scanNums_nil]
    have hb : '\x7b' ∉ w := by
      intro hmem
      have := hw _ hmem
      simp [pyIsSpace] at this
    have h0 := scanNums_append_nobrace w [] hb
    simpa [scanNums_nil] using h0
  | case2 rest n rest' heq hlt ih =>
    rw [List.cons_append, scanNums, if_pos rfl]
    rw [scanNums, if_pos rfl]
    have hw2 := tryPH_append_ws w hw rest
    rw [heq] at hw2
    simp only [Option.map] at hw2
    split
    next m rest2 heq2 =>
      rw [heq2] at hw2
      simp at hw2
      obtain ⟨h1, h2⟩ := hw2
      subst h1
      split
      next m2 rest3 heq3 =>
        rw [heq] at heq3
        simp at heq3
        obtain ⟨e1, e2⟩ := heq3
        subst e1
        subst e2
        show m :: scanNums rest2 = m :: scanNums rest'
        rw [h2, ih]
      next heq3 =>
        rw [heq] at heq3
        simp at heq3
    next heq2 =>
      rw [heq2] at hw2
      simp at hw2
  | case3 rest heq ih =>
    rw [List.cons_append, scanNums, if_pos rfl]
    rw [scanNums, if_pos rfl]
    have hw2 := tryPH_append_ws w hw rest
    rw [heq] at hw2
    simp only [Option.map] at hw2
    split
    next m rest2 heq2 => rw [heq2] at hw2; simp at hw2
    next heq2 =>
      split
      next m2 rest3 heq3 =>
        rw [heq] at heq3
        simp at heq3
      next heq3 => exact ih
  | case4 c rest hc ih =>
    rw [List.cons_append, scanNums_cons_ne c _ hc, scanNums_cons_ne c _ hc]
    exact ih

/-- The final `.strip()` of the generated pattern does not affect the
placeholder scan. -/
theorem scanNums_pyStrip (s : Str) : scanNums (pyStrip s) = scanNums s := by
  unfold pyStrip
  have hleft : scanNums (pyLStrip s) = scanNums s := by
    conv_rhs => rw [← List.takeWhile_append_dropWhile (p := pyIsSpace) (l := s)]
    rw [pyLStrip]
    rw [scanNums_append_nobrace]
    intro hmem
    have := List.mem_takeWhile_imp hmem
    simp [pyIsSpace] at this
  rw [← hleft]
  set u := pyLStrip s with hu
  have hdecomp : u = pyRStrip u ++ (u.reverse.takeWhile pyIsSpace).reverse := by
    rw [pyRStrip]
    have : u.reverse = u.reverse.takeWhile pyIsSpace ++ u.reverse.dropWhile pyIsSpace :=
      (List.takeWhile_append_dropWhile (p := pyIsSpace) (l := u.reverse)).symm
    calc u = u.reverse.reverse := by simp
    _ = (u.reverse.takeWhile pyIsSpace ++ u.reverse.dropWhile pyIsSpace).reverse := by rw [← this]
    _ = _ := by rw [List.reverse_append]
  conv_rhs => rw [hdecomp]
  rw [scanNums_append_ws]
  intro c hmem
  simp only [List.mem_reverse] at hmem
  have := List.mem_takeWhile_imp hmem
  exact this

/-! ### Structural facts about segmentation and dash splitting -/

namespace Tokenizer

theorem findDash_parts {l : Str} :
    ∀ {pre d after : Str}, findDash l = some (pre, d, after) → l = pre ++ d ++ after := by
  induction l with
  | nil => intro pre d after h; simp [findDash] at h
  | cons a rest ih =>
    intro pre d after h
    cases rest with
    | nil => simp [findDash] at h
    | cons b rest2 =>
      rw [findDash.eq_def] at h
      simp only at h
      by_cases h1 : pyIsSpace a && (b == '-')
      · rw [if_pos h1] at h
        simp at h1
        obtain ⟨_, h1b⟩ := h1
        cases rest2 with
        | nil =>
          simp at h
          obtain ⟨hp, hd, ha⟩ := h
          subst hp; subst hd; subst ha
          subst h1b
          rfl
        | cons c rest3 =>
          simp only at h
          by_cases h2 : pyIsSpace c
          · rw [if_pos h2] at h
            simp at h
            obtain ⟨hp, hd, ha⟩ := h
            subst hp; subst hd; subst ha
            subst h1b
            rfl
          · rw [if_neg h2] at h
            simp at h
            obtain ⟨hp, hd, ha⟩ := h
            subst hp; subst hd; subst ha
            subst h1b
            rfl
      · rw [if_neg h1] at h
        by_cases h2 : (a == '-') && pyIsSpace b
        · rw [if_pos h2] at h
          simp at h
          obtain ⟨hp, hd, ha⟩ := h
          subst hp; subst hd; subst ha
          simp at h2
          obtain ⟨h2a, _⟩ := h2
          subst h2a
          rfl
        · rw [if_neg h2] at h
          revert h
          split
          · intro h; simp at h
          next pre2 d2 after2 heq =>
            intro h
            simp at h
            obtain ⟨hp, hd, ha⟩ := h
            subst hp; subst hd; subst ha
            have hih := ih heq
            rw [hih]
            simp

theorem dashPieces_chars {cs : Str} :
    ∀ {pd : Str × Str}, pd ∈ dashPieces cs → ∀ {c : Char}, (c ∈ pd.1 ∨ c ∈ pd.2) → c ∈ cs := by
  induction cs using dashPieces.induct with
  | case1 cs hnone =>
    intro pd hmem c hc
    rw [dashPieces.eq_def] at hmem
    split at hmem
    next heq =>
      simp at hmem
      subst hmem
      rcases hc with hc | hc
      · exact hc
      · simp at hc
    next pre d after heq =>
      rw [hnone] at heq
      simp at heq
  | case2 cs pre d after hfd hlen ih =>
    intro pd hmem c hc
    rw [dashPieces.eq_def] at hmem
    split at hmem
    next heq =>
      rw [hfd] at heq
      simp at heq
    next pre2 d2 after2 heq =>
      rw [hfd] at heq
      simp at heq
      obtain ⟨e1, e2, e3⟩ := heq
      subst e1; subst e2; subst e3
      simp at hmem
      have hparts := findDash_parts hfd
      rcases hmem with hmem | hmem
      · subst hmem
        rw [hparts]
        simp
        tauto
      · have := ih hmem hc
        rw [hparts]
        simp
        tauto

theorem segmentize_plain_chars (cs : Str) (pos : Nat) :
    ∀ {run : Str} {start : Nat},
      Seg.plain run start ∈ segmentize cs pos → ∀ c ∈ run, isSegDelim c = false := by
  induction cs, pos using segmentize.induct with
  | case1 pos =>
    intro run start hmem
    rw [segmentize] at hmem
    simp at hmem
  | case2 rest pos inner rest' htu hlt ih =>
    intro run start hmem
    rw [segmentize.eq_def] at hmem
    simp only at hmem
    split at hmem
    next heq =>
      split at hmem
      next inner2 rest2 heq3 =>
        rw [htu] at heq3
        simp at heq3
        obtain ⟨e1, e2⟩ := heq3
        rw [← e1, ← e2] at hmem
        rcases List.mem_cons.mp hmem with hmem | hmem
        · simp at hmem
        · exact ih hmem
      next heq3 =>
        rw [htu] at heq3
        simp at heq3
    next heq => exact absurd trivial heq
  | case3 rest pos htu ih =>
    intro run start hmem
    rw [segmentize.eq_def] at hmem
    simp only at hmem
    split at hmem
    next heq =>
      split at hmem
      next inner2 rest2 heq3 =>
        rw [htu] at heq3
        simp at heq3
      next heq3 =>
        exact ih hmem
    next heq => exact absurd trivial heq
  | case4 rest pos inner rest' htu hlt hne ih =>
    intro run start hmem
    rw [segmentize.eq_def] at hmem
    simp only at hmem
    split at hmem
    next heq => exact absurd heq hne
    next heq =>
      split at hmem
      next heq2 =>
        split at hmem
        next inner2 rest2 heq3 =>
          rw [htu] at heq3
          simp at heq3
          obtain ⟨e1, e2⟩ := heq3
          rw [← e1, ← e2] at hmem
          rcases List.mem_cons.mp hmem with hmem | hmem
          · simp at hmem
          · exact ih hmem
        next heq3 =>
          rw [htu] at heq3
          simp at heq3
      next heq2 => exact absurd trivial heq2
  | case5 rest pos htu hne ih =>
    intro run start hmem
    rw [segmentize.eq_def] at hmem
    simp only at hmem
    split at hmem
    next heq => exact absurd heq hne
    next heq =>
      split at hmem
      next heq2 =>
        split at hmem
        next inner2 rest2 heq3 =>
          rw [htu] at heq3
          simp at heq3
        next heq3 =>
          exact ih hmem
      next heq2 => exact absurd trivial heq2
  | case6 rest pos inner rest' htu hlt hne1 hne2 ih =>
    intro run start hmem
    rw [segmentize.eq_def] at hmem
    simp only at hmem
    split at hmem
    next heq => exact absurd heq hne1
    next heq =>
      split at hmem
      next heq2 =>
        split at hmem
        next inner2 rest2 heq4 =>
          rw [htu] at heq4
          simp at heq4
          obtain ⟨e1, e2⟩ := heq4
          rw [← e1, ← e2] at hmem
          rcases List.mem_cons.mp hmem with hmem | hmem
          · simp at hmem
          · exact ih hmem
        next heq4 =>
          rw [htu] at heq4
          simp at heq4
      next heq2 => exact absurd trivial heq2
  | case7 rest pos htu hne1 hne2 ih =>
    intro run start hmem
    rw [segmentize.eq_def] at hmem
    simp only at hmem
    split at hmem
    next heq => exact absurd heq hne1
    next heq =>
      split at hmem
      next heq2 =>
        split at hmem
        next inner2 rest2 heq4 =>
          rw [htu] at heq4
          simp at heq4
        next heq4 =>
          exact ih hmem
      next heq2 => exact absurd trivial heq2
  | case8 c rest pos hne1 hne2 hne3 hdelim ih =>
    intro run start hmem
    rw [segmentize.eq_def] at hmem
    simp only at hmem
    rw [if_neg hne1, if_neg hne2, if_neg hne3] at hmem
    rw [dif_pos hdelim] at hmem
    exact ih hmem
  | case9 c rest pos hne1 hne2 hne3 hnd brun brest =>
    rename_i hlt ih
    intro run start hmem
    rw [segmentize.eq_def] at hmem
    simp only at hmem
    rw [if_neg hne1, if_neg hne2, if_neg hne3] at hmem
    rw [dif_neg hnd] at hmem
    rcases List.mem_cons.mp hmem with hmem | hmem
    · simp at hmem
      obtain ⟨hrun, _⟩ := hmem
      intro ch hch
      rw [hrun] at hch
      have hrv : ch ∈ List.takeWhile (fun d => !isSegDelim d) (c :: rest) := hch
      have := List.mem_takeWhile_imp hrv
      simpa using this
    · exact ih hmem

end Tokenizer

/-! ### Placeholder/token correspondence -/

theorem drop_cons_getD {α : Type} (jl : List α) (a : Nat) (x : α) (xs : List α) (dflt : α)
    (h : jl.drop a = x :: xs) : jl.getD a dflt = x := by
  induction jl generalizing a with
  | nil => simp at h
  | cons y ys ih =>
    cases a with
    | zero => simp at h ⊢; exact h.1
    | succ a' =>
      rw [List.drop_succ_cons] at h
      rw [List.getD_cons_succ]
      exact ih a' h

theorem drop_cons_succ {α : Type} (jl : List α) (a : Nat) (x : α) (xs : List α)
    (h : jl.drop a = x :: xs) : jl.drop (a + 1) = xs := by
  have : jl.drop (a + 1) = (jl.drop a).drop 1 := by
    rw [List.drop_drop]
  rw [this, h]
  simp

namespace Tokenizer

theorem plainParts_spec (junk : List Str) (pieces : List (Str × Str)) :
    ∀ (jl : List Bool) (a r start : Nat) (ext : List Bool) (tail : Str),
    (∀ pd ∈ pieces, '\x7b' ∉ pd.1 ∧ '\x7b' ∉ pd.2) →
    jl.drop a = (plainTokens pieces start).map (fun t => isJunkToken junk t.value) ++ ext →
    (plainParts pieces jl a r).2.1 = a + (plainTokens pieces start).length ∧
    (plainParts pieces jl a r).2.2 =
      r + ((plainTokens pieces start).filter (fun t => !isJunkToken junk t.value)).length ∧
    scanNums ((plainParts pieces jl a r).1 ++ tail) =
      List.range' r
        (((plainTokens pieces start).filter (fun t => !isJunkToken junk t.value)).length)
        ++ scanNums tail := by
  induction pieces with
  | nil =>
    intro jl a r start ext tail hnb hjl
    simp [plainParts, plainTokens, scanNums_nil]
  | cons pd rest ih =>
    rcases pd with ⟨part, d⟩
    intro jl a r start ext tail hnb hjl
    have hnb1 := hnb (part, d) (List.mem_cons_self _ _)
    have hnbrest : ∀ pd ∈ rest, '\x7b' ∉ pd.1 ∧ '\x7b' ∉ pd.2 :=
      fun pd hm => hnb pd (List.mem_cons_of_mem _ hm)
    by_cases hpe : part = []
    · have hst : pyStrip part = [] := by rw [hpe]; rfl
      rw [plainParts.eq_def]
      simp only [if_pos hpe]
      rw [plainTokens.eq_def] at hjl ⊢
      simp only [if_pos hst, List.nil_append] at hjl ⊢
      obtain ⟨ih1, ih2, ih3⟩ :=
        ih jl a r (start + part.length + d.length) ext tail hnbrest hjl
      refine ⟨ih1, ih2, ?_⟩
      rw [List.append_assoc, scanNums_append_nobrace d _ hnb1.2]
      exact ih3
    · rw [plainParts.eq_def]
      simp only [if_neg hpe]
      by_cases hst : pyStrip part = []
      · simp only [if_pos hst]
        rw [plainTokens.eq_def] at hjl ⊢
        simp only [if_pos hst, List.nil_append] at hjl ⊢
        obtain ⟨ih1, ih2, ih3⟩ :=
          ih jl a r (start + part.length + d.length) ext tail hnbrest hjl
        refine ⟨ih1, ih2, ?_⟩
        rw [List.append_assoc, List.append_assoc,
          scanNums_append_nobrace part _ hnb1.1, scanNums_append_nobrace d _ hnb1.2]
        exact ih3
      · simp only [if_neg hst]
        rw [plainTokens.eq_def] at hjl ⊢
        simp only [if_neg hst, List.singleton_append] at hjl ⊢
        set tok : Token :=
          ⟨pyStrip part, tyText, start + (part.length - (pyLStrip part).length)⟩ with htok
        rw [List.map_cons] at hjl
        have hflag := drop_cons_getD jl a _ _ false hjl
        have hdrop := drop_cons_succ jl a _ _ hjl
        rw [junkAt, hflag]
        by_cases hj : isJunkToken junk (pyStrip part) = true
        · simp only [htok] at hj ⊢
          simp only [hj]; rw [if_pos trivial]
          obtain ⟨ih1, ih2, ih3⟩ :=
            ih jl (a + 1) r (start + part.length + d.length) ext tail hnbrest hdrop
          refine ⟨?_, ?_, ?_⟩
          · rw [ih1]
            simp
            omega
          · rw [ih2]
            congr 1
            rw [List.filter_cons]
            simp [hj]
          · rw [List.filter_cons]
            simp only [hj]
            simp only [Bool.not_true, if_neg (by simp : ¬ (false = true))]
            simp only [List.append_assoc]
            rw [scanNums_spaces, scanNums_junk, scanNums_spaces,
              scanNums_append_nobrace d _ hnb1.2]
            exact ih3
        · have hj' : isJunkToken junk (pyStrip part) = false := by
            cases hjj : isJunkToken junk (pyStrip part)
            · rfl
            · exact absurd hjj hj
          simp only [htok] at hj' ⊢
          simp only [hj']; rw [if_neg Bool.false_ne_true]
          obtain ⟨ih1, ih2, ih3⟩ :=
            ih jl (a + 1) (r + 1) (start + part.length + d.length) ext tail hnbrest hdrop
          refine ⟨?_, ?_, ?_⟩
          · rw [ih1]
            simp
            omega
          · rw [ih2]
            rw [List.filter_cons]
            simp [hj']
            omega
          · rw [List.filter_cons]
            simp only [hj']
            simp only [Bool.not_false]; rw [if_pos trivial]
            simp only [List.append_assoc]
            rw [scanNums_spaces, scanNums_placeholder, scanNums_spaces,
              scanNums_append_nobrace d _ hnb1.2]
            rw [ih3]
            rw [List.length_cons, List.range'_succ]
            simp
  done

end Tokenizer

theorem drop_append_eq {α : Type} (jl xs ys : List α) (a : Nat)
    (h : jl.drop a = xs ++ ys) : jl.drop (a + xs.length) = ys := by
  have h2 : jl.drop (a + xs.length) = (jl.drop a).drop xs.length := by
    rw [List.drop_drop, Nat.add_comm]
  rw [h2, h, List.drop_left]

theorem range1_append (r k1 k2 : Nat) :
    List.range' r (k1 + k2) = List.range' r k1 ++ List.range' (r + k1) k2 := by
  rw [Nat.add_comm k1 k2, ← List.range'_append]
  simp

namespace Tokenizer

theorem patternGo_spec (junk : List Str) (segs : List Seg) :
    ∀ (jl : List Bool) (a r : Nat) (ext : List Bool) (tail : Str),
    (∀ cs start, Seg.plain cs start ∈ segs → '\x7b' ∉ cs) →
    jl.drop a = (segs.flatMap segTokens).map (fun t => isJunkToken junk t.value) ++ ext →
    scanNums (patternGo segs jl a r ++ tail) =
      List.range' r
        (((segs.flatMap segTokens).filter (fun t => !isJunkToken junk t.value)).length)
        ++ scanNums tail := by
  induction segs with
  | nil =>
    intro jl a r ext tail hpl hjl
    simp [patternGo]
  | cons s rest ih =>
    intro jl a r ext tail hpl hjl
    have hplrest : ∀ cs start, Seg.plain cs start ∈ rest → '\x7b' ∉ cs :=
      fun cs start hm => hpl cs start (List.mem_cons_of_mem _ hm)
    cases s with
    | group k inner start =>
      simp only [List.flatMap_cons] at hjl ⊢
      by_cases hstrip : pyStrip inner = []
      · simp only [patternGo, segTokens, if_pos hstrip] at hjl ⊢
        simp only [List.nil_append] at hjl ⊢
        exact ih jl a r ext tail hplrest hjl
      · simp only [patternGo, segTokens, if_neg hstrip] at hjl ⊢
        simp only [List.singleton_append, List.map_cons] at hjl
        have hflag := drop_cons_getD jl a _ _ false hjl
        have hdrop := drop_cons_succ jl a _ _ hjl
        rw [junkAt, hflag]
        by_cases hj : isJunkToken junk (pyStrip inner) = true
        · simp only [hj]
          rw [if_pos trivial]
          rw [List.append_assoc, scanNums_groupJunk]
          rw [List.cons_append, List.filter_cons]
          simp only [hj, Bool.not_true]
          rw [if_neg Bool.false_ne_true]
          exact ih jl (a + 1) r _ tail hplrest hdrop
        · have hj' : isJunkToken junk (pyStrip inner) = false := by
            cases hjj : isJunkToken junk (pyStrip inner)
            · rfl
            · exact absurd hjj hj
          simp only [hj']
          rw [if_neg Bool.false_ne_true]
          rw [List.append_assoc, scanNums_groupWrap]
          rw [List.cons_append, List.filter_cons]
          simp only [hj', Bool.not_false]
          rw [if_pos trivial, List.length_cons, List.range'_succ, List.cons_append]
          congr 1
          exact ih jl (a + 1) (r + 1) _ tail hplrest hdrop
    | plain cs start =>
      have hcs : '\x7b' ∉ cs := hpl cs start (List.mem_cons_self _ _)
      have hnb : ∀ pd ∈ dashPieces cs, '\x7b' ∉ pd.1 ∧ '\x7b' ∉ pd.2 := by
        intro pd hm
        constructor
        · intro hin
          exact hcs (dashPieces_chars hm (Or.inl hin))
        · intro hin
          exact hcs (dashPieces_chars hm (Or.inr hin))
      simp only [List.flatMap_cons, segTokens, List.map_append, List.append_assoc] at hjl
      simp only [patternGo]
      obtain ⟨h1, h2, h3⟩ :=
        plainParts_spec junk (dashPieces cs) jl a r start
          ((rest.flatMap segTokens).map (fun t => isJunkToken junk t.value) ++ ext)
          (patternGo rest jl (plainParts (dashPieces cs) jl a r).2.1
            (plainParts (dashPieces cs) jl a r).2.2 ++ tail) hnb hjl
      have hdrop : jl.drop (a + (plainTokens (dashPieces cs) start).length) =
          (rest.flatMap segTokens).map (fun t => isJunkToken junk t.value) ++ ext := by
        have hda := drop_append_eq jl _ _ a hjl
        rwa [List.length_map] at hda
      rw [List.append_assoc, h3]
      rw [h1, h2] at *
      rw [ih jl _ _ ext tail hplrest hdrop]
      rw [List.flatMap_cons, segTokens, List.filter_append, List.length_append,
        range1_append, List.append_assoc]

end Tokenizer

namespace Tokenizer

theorem scanNums_pathSep (sep : Char) (hsep : sep ≠ '\x7b') (l : Str) :
    scanNums ((('\x7b' :: ("path".data ++ ['\x7d'])) ++ [sep]) ++ l) = scanNums l := by
  rw [List.cons_append, List.cons_append, scanNums, if_pos rfl]
  have hnone : tryPH ((("path".data ++ ['\x7d']) ++ [sep]) ++ l) = none := by
    unfold tryPH
    have hdp : List.dropPrefix? ((("path".data ++ ['\x7d']) ++ [sep]) ++ l) tokenChars
        = none := by
      simp [List.dropPrefix?, tokenChars]
    rw [hdp]
  split
  next heq => rw [heq] at hnone; simp at hnone
  next =>
    apply scanNums_append_nobrace
    intro hin
    rcases List.mem_append.mp hin with h1 | h1
    · rcases List.mem_append.mp h1 with h2 | h2
      · revert h2; decide
      · revert h2; decide
    · simp at h1
      exact hsep h1.symm

theorem findLastSep_getD (l : Str) :
    ∀ (full : Str) (i : Nat) (acc : Option Nat) (j : Nat),
    full.drop i = l →
    (∀ j0, acc = some j0 → full.getD j0 ' ' = '/' ∨ full.getD j0 ' ' = '\\') →
    extractPath.findLastSep l i acc = some j →
    full.getD j ' ' = '/' ∨ full.getD j ' ' = '\\' := by
  induction l with
  | nil =>
    intro full i acc j hdrop hacc hfind
    exact hacc j hfind
  | cons c rest ih =>
    intro full i acc j hdrop hacc hfind
    have hc : full.getD i ' ' = c := drop_cons_getD full i c rest ' ' hdrop
    have hdrop' : full.drop (i + 1) = rest := drop_cons_succ full i c rest hdrop
    rw [extractPath.findLastSep] at hfind
    split at hfind
    next hsep =>
      refine ih full (i + 1) (some i) j hdrop' ?_ hfind
      intro j0 hj0
      injection hj0 with hj0
      subst hj0
      rw [hc]
      rcases hsep with h | h
      · left; exact congrArg id h
      · right; exact congrArg id h
    next hsep =>
      exact ih full (i + 1) acc j hdrop' hacc hfind

theorem extractPath_sep (filepath : Str) (p : Str) (sep : Char)
    (h : (extractPath filepath).2 = some (p, sep)) : sep = '/' ∨ sep = '\\' := by
  rw [extractPath] at h
  split at h
  next => simp at h
  next i heq =>
    replace h : some (filepath.take i, filepath.getD i ' ') = some (p, sep) := h
    injection h with h2
    have h4 := congrArg Prod.snd h2
    simp only at h4
    rw [← h4]
    exact findLastSep_getD filepath filepath 0 none i rfl (by intro j0 hj0; simp at hj0) heq

theorem segmentize_plain_nobrace (cs : Str) (pos : Nat) :
    ∀ run start, Seg.plain run start ∈ segmentize cs pos → '\x7b' ∉ run := by
  intro run start hmem hin
  have := segmentize_plain_chars cs pos hmem _ hin
  simp [isSegDelim] at this

theorem plainTokens_ty (pieces : List (Str × Str)) :
    ∀ start, ∀ t ∈ plainTokens pieces start, t.ty = tyText := by
  induction pieces with
  | nil => intro start t ht; simp [plainTokens] at ht
  | cons pd rest ih =>
    rcases pd with ⟨part, d⟩
    intro start t ht
    rw [plainTokens] at ht
    rcases List.mem_append.mp ht with h1 | h1
    · split at h1
      · simp at h1
      · simp at h1
        subst h1
        rfl
    · exact ih _ t h1

theorem isGeneric_of_ty (t : Token)
    (h : t.ty = tyText ∨ t.ty = tyBracket ∨ t.ty = tyParenthesis ∨ t.ty = tyCurly) :
    t.isGeneric = true := by
  rw [Token.isGeneric]
  rcases h with h | h | h | h <;> rw [h] <;> decide

theorem extractTokens_generic (filename : Str) :
    ∀ t ∈ extractTokens filename, t.isGeneric = true := by
  intro t ht
  rw [extractTokens] at ht
  rcases List.mem_flatMap.mp ht with ⟨s, hs, hts⟩
  cases s with
  | group k inner start =>
    rw [segTokens] at hts
    split at hts
    · simp at hts
    · simp at hts
      subst hts
      apply isGeneric_of_ty
      cases k
      · exact Or.inr (Or.inl rfl)
      · exact Or.inr (Or.inr (Or.inl rfl))
      · exact Or.inr (Or.inr (Or.inr rfl))
  | plain cs start =>
    rw [segTokens] at hts
    have hty := plainTokens_ty (dashPieces cs) start t hts
    exact isGeneric_of_ty t (Or.inl hty)

end Tokenizer

namespace Tokenizer

theorem isGeneric_ty_eq (t u : Token) (h : t.ty = u.ty) : t.isGeneric = u.isGeneric := by
  rw [Token.isGeneric, Token.isGeneric, h]

theorem pathToken_not_generic (p : Str) : Token.isGeneric ⟨p, tyPath, 0⟩ = false := by
  rw [Token.isGeneric]
  show ((tyPath == tyText) || (tyPath == tyBracket) || (tyPath == tyParenthesis)
    || (tyPath == tyCurly)) = false
  decide

theorem trimmed_generic (junk ts : List Str) (filename : Str) :
    ∀ t ∈ ((extractTokens filename).filter
        (fun t => !isJunkToken junk t.value)).map (trimToken ts), t.isGeneric = true := by
  intro t ht
  rcases List.mem_map.mp ht with ⟨u, hu, rfl⟩
  rw [isGeneric_ty_eq (trimToken ts u) u rfl]
  exact extractTokens_generic filename u (List.mem_of_mem_filter hu)

theorem base_pattern_scan (junk ts : List Str) (filename : Str) :
    scanNums (pyStrip (patternGo (segmentize filename 0)
      ((extractTokens filename).map (fun t => isJunkToken junk t.value)) 0 0)) =
    List.range ((((extractTokens filename).filter
      (fun t => !isJunkToken junk t.value)).map (trimToken ts)).filter
        Token.isGeneric).length := by
  rw [scanNums_pyStrip]
  have h := patternGo_spec junk (segmentize filename 0)
      ((extractTokens filename).map (fun t => isJunkToken junk t.value)) 0 0 [] []
      (fun cs start hm => segmentize_plain_nobrace _ 0 cs start hm)
      (by simp [extractTokens])
  simp only [List.append_nil, scanNums_nil] at h
  rw [h]
  rw [List.filter_eq_self.mpr (trimmed_generic junk ts filename), List.length_map]
  rw [List.range_eq_range']
  rfl

end Tokenizer

/-- C1: amended template invariant, established for the tokenizer itself.
After `Tokenizer.tokenize`, the pattern's numbered `\x7btokenN\x7d`
placeholders, read left to right, are exactly the contiguous indices
`0 .. N-1` where `N` is the number of result tokens whose type is still
generic (text, bracket, parenthesis or curly).  (The original claim
asserted this for every later pipeline stage as well; the date-extraction
and studio dash-split stages break it, see the counterexample.) -/
theorem C1_tokenizer_template_invariant (junk ts : List Str) (original cleaned : Str) :
    ((Tokenizer.tokenize junk ts original cleaned).pattern).map scanNums =
    some (List.range
      ((((Tokenizer.tokenize junk ts original cleaned).tokens.getD []).filter
        Token.isGeneric).length)) := by
  have hpat : (Tokenizer.tokenize junk ts original cleaned).pattern =
      some (Tokenizer.generatePattern (Tokenizer.extractPath cleaned).1
        ((Tokenizer.extractTokens (Tokenizer.extractPath cleaned).1).map
          (fun t => Tokenizer.isJunkToken junk t.value))
        (Tokenizer.extractPath cleaned).2) := rfl
  have htoks : (Tokenizer.tokenize junk ts original cleaned).tokens =
      some ((match (Tokenizer.extractPath cleaned).2 with
             | some (p, _) => if p = [] then [] else [⟨p, tyPath, 0⟩]
             | none => []) ++
            ((Tokenizer.extractTokens (Tokenizer.extractPath cleaned).1).filter
              (fun t => !Tokenizer.isJunkToken junk t.value)).map
                (Tokenizer.trimToken ts)) := rfl
  rw [hpat, htoks, Option.map_some', Option.getD_some, Option.some_inj]
  rcases hfp : (Tokenizer.extractPath cleaned).2 with _ | ⟨p, sep⟩
  · simp only [Tokenizer.generatePattern, List.nil_append]
    exact Tokenizer.base_pattern_scan junk ts _
  · simp only [Tokenizer.generatePattern]
    by_cases hp : p = []
    · simp only [if_pos hp, List.nil_append]
      exact Tokenizer.base_pattern_scan junk ts _
    · simp only [if_neg hp]
      have hsep := Tokenizer.extractPath_sep cleaned p sep hfp
      have hne : sep ≠ '\x7b' := by
        rcases hsep with h | h <;> (subst h; decide)
      rw [Tokenizer.scanNums_pathSep sep hne]
      rw [List.singleton_append, List.filter_cons]
      rw [show Token.isGeneric ⟨p, tyPath, 0⟩ = false from Tokenizer.pathToken_not_generic p]
      rw [if_neg Bool.false_ne_true]
      exact Tokenizer.base_pattern_scan junk ts _

/-- Non-dependent unfolding of `scanNums`, suitable for step-by-step
evaluation on concrete strings. -/
theorem scanNums_cons (c : Char) (l : Str) :
    scanNums (c :: l) =
      if c = '\x7b' then
        match tryPH l with
        | some (n, rest') => n :: scanNums rest'
        | none => scanNums l
      else scanNums l := by
  by_cases hc : c = '\x7b'
  · subst hc
    rw [scanNums, if_pos rfl, if_pos rfl]
    split
    next n rest' heq =>
      show n :: scanNums rest' = _
      conv_rhs => rw [heq]
    next heq =>
      conv_rhs => rw [heq]
  · rw [scanNums_cons_ne c l hc, if_neg hc]

/-! ## Date extraction

Embedding of src/modules/date_extractor.py.  The date regexes and month
tables live in an external dictionary (date_formats.json, absent from the
source tree), so a rule is abstracted as a search function returning, for
a token value, the half-open match span together with the result of
`_normalize_date` on that match; `DateExtractor.date_patterns` becomes a
list of such rules tried in order, first match winning. -/

/-- One compiled entry of `DateExtractor.date_patterns`: `search` returns
the span `(start, stop)` of the leftmost match in the given string and the
normalization outcome for that match, or `none` when the regex does not
match. -/
structure DateRule where
  search : Str → Option (Nat × Nat × Option Str)

/-- `DateExtractor._find_dates_in_tokens` inner loop: first matching
pattern wins. -/
def dateSearch (rules : List DateRule) (v : Str) : Option (Nat × Nat × Option Str) :=
  match rules with
  | [] => none
  | r :: rest =>
    match r.search v with
    | some x => some x
    | none => dateSearch rest v

/-- The `DateMatch` dataclass (`end` is written `stop`). -/
structure DateMatch where
  dateStr : Str
  start : Nat
  stop : Nat
  tokenIndex : Nat
  normalized : Option Str
deriving DecidableEq, Repr

/-- `DateExtractor._find_dates_in_tokens`: path tokens are skipped without
advancing the non-path index; a match is recorded whether or not its
normalization succeeded. -/
def findDates (rules : List DateRule) : List Token → Nat → List DateMatch
  | [], _ => []
  | t :: rest, idx =>
    if t.ty = tyPath then findDates rules rest idx
    else
      match dateSearch rules t.value with
      | some (s, e, norm) =>
        ⟨(t.value.drop s).take (e - s), s, e, idx, norm⟩ :: findDates rules rest (idx + 1)
      | none => findDates rules rest (idx + 1)

/-- Python `x or y` on an optional string: `y` when `x` is `None` or empty. -/
def pyOrStr (x : Option Str) (y : Str) : Str :=
  match x with
  | some s => if s = [] then y else s
  | none => y

/-- `DateExtractor._split_token_at_date`. -/
def splitTokenAtDate (t : Token) (dm : DateMatch) : List Token :=
  let value := t.value
  let beforePart : List Token :=
    if 0 < dm.start then
      let before := pyStrip (value.take dm.start)
      if before = [] then [] else [⟨before, t.ty, t.position⟩]
    else []
  let dateTok : Token := ⟨pyOrStr dm.normalized dm.dateStr, tyDate, t.position + dm.start⟩
  let afterPart : List Token :=
    if dm.stop < value.length then
      let after := pyStrip (value.drop dm.stop)
      if after = [] then [] else [⟨after, t.ty, t.position + dm.stop⟩]
    else []
  beforePart ++ [dateTok] ++ afterPart

/-- `DateExtractor._split_tokens_with_dates`: path tokens are kept as-is
and do not advance the non-path index. -/
def splitTokensWithDates (dms : List DateMatch) : List Token → Nat → List Token
  | [], _ => []
  | t :: rest, idx =>
    if t.ty = tyPath then t :: splitTokensWithDates dms rest idx
    else
      match dms.find? (fun dm => dm.tokenIndex == idx) with
      | some dm => splitTokenAtDate t dm ++ splitTokensWithDates dms rest (idx + 1)
      | none => t :: splitTokensWithDates dms rest (idx + 1)

/-- Python `str.replace` (all non-overlapping occurrences, left to right).
The empty-pattern case never arises from the embedded call sites, whose
search strings are placeholder literals. -/
def strReplace (s old new : Str) : Str :=
  if hold : old = [] then s
  else
    match s with
    | [] => []
    | c :: rest =>
      if old.isPrefixOf (c :: rest) then
        new ++ strReplace ((c :: rest).drop old.length) old new
      else
        c :: strReplace rest old new
termination_by s.length
decreasing_by
  · cases old with
    | nil => exact absurd rfl hold
    | cons o os => first | (simp; omega) | simp
  · simp

/-- The `\x7bdate\x7d` placeholder literal. -/
def dateChars : Str := '\x7b' :: ("date".data ++ ['\x7d'])

/-- The replacement-building loop of `DateExtractor._update_pattern`:
walks the non-path token indices in order, accumulating the shift, and
records one replacement string per index.  Returns `none` when the token
lookup `original_tokens[token_idx + adj]` is out of range (a Python
`IndexError`). -/
def dateRepls (dms : List DateMatch) (toks : List Token) (adj : Nat) :
    Nat → Nat → Nat → Option (List (Nat × Str))
  | _, 0, _ => some []
  | idx, rem + 1, shift =>
    match dms.find? (fun dm => dm.tokenIndex == idx) with
    | some dm =>
      match toks.get? (idx + adj) with
      | none => none
      | some tok =>
        let value := tok.value
        let hasBefore := decide (0 < dm.start) && !(pyStrip (value.take dm.start) == [])
        let hasAfter :=
          decide (dm.stop < value.length) && !(pyStrip (value.drop dm.stop) == [])
        if hasBefore && hasAfter then
          match dateRepls dms toks adj (idx + 1) rem (shift + 2) with
          | none => none
          | some l =>
            some ((idx, phChars (idx + shift) ++ [' '] ++ dateChars ++ [' ']
              ++ phChars (idx + shift + 2)) :: l)
        else if hasBefore then
          match dateRepls dms toks adj (idx + 1) rem (shift + 1) with
          | none => none
          | some l => some ((idx, phChars (idx + shift) ++ [' '] ++ dateChars) :: l)
        else if hasAfter then
          match dateRepls dms toks adj (idx + 1) rem (shift + 1) with
          | none => none
          | some l => some ((idx, dateChars ++ [' '] ++ phChars (idx + shift + 1)) :: l)
        else
          match dateRepls dms toks adj (idx + 1) rem shift with
          | none => none
          | some l => some ((idx, dateChars) :: l)
    | none =>
      match dateRepls dms toks adj (idx + 1) rem shift with
      | none => none
      | some l => some ((idx, phChars (idx + shift)) :: l)

/-- The replacement-application loop of `DateExtractor._update_pattern`:
indices are processed from highest to lowest, each via a global
`str.replace` of its numbered placeholder. -/
def applyRepls (p : Str) (l : List (Nat × Str)) : Str :=
  l.reverse.foldl (fun acc ir => strReplace acc (phChars ir.1) ir.2) p

/-- `DateExtractor._update_pattern`.  The outer `Option` is the Python
`IndexError` raised by the `original_tokens[token_idx + adj]` lookup; the
inner one mirrors the `Optional[str]` pattern value. -/
def updatePattern (dms : List DateMatch) (toks : List Token) (pat : Option Str) :
    Option (Option Str) :=
  match pat with
  | none => some none
  | some p =>
    if p = [] then some (some p)
    else if dms = [] then some (some p)
    else
      let adj : Nat := if toks.any (fun t => t.ty == tyPath) then 1 else 0
      let nonPathCount := (toks.filter (fun t => !(t.ty == tyPath))).length
      match dateRepls dms toks adj 0 nonPathCount 0 with
      | none => none
      | some repls => some (some (applyRepls p repls))

/-- `DateExtractor.process`.  `none` models an uncaught Python exception. -/
def dateProcess (rules : List DateRule) (r : ParseResult) : Option ParseResult :=
  match r.tokens with
  | none => some r
  | some tokens =>
    let dms := findDates rules tokens 0
    if dms = [] then some r
    else
      match updatePattern dms tokens r.pattern with
      | none => none
      | some newPat =>
        some { r with
          pattern := newPat
          tokens := some (splitTokensWithDates dms tokens 0) }

theorem strReplace_nil (old new : Str) : strReplace [] old new = [] := by
  rw [strReplace]
  split <;> rfl

theorem strReplace_cons (c : Char) (rest old new : Str) (h : ¬ old = []) :
    strReplace (c :: rest) old new =
      if old.isPrefixOf (c :: rest) then
        new ++ strReplace ((c :: rest).drop old.length) old new
      else c :: strReplace rest old new := by
  rw [strReplace, dif_neg h]

theorem natChars_lt10 (n : Nat) (h : n < 10) :
    natChars n = [Char.ofNat ('0'.toNat + n)] := by
  rw [natChars, dif_pos h]

/-- A date rule as compiled from a date_formats.json entry: matches the
compact date `20200101` inside the single token of the counterexample
input, with successful ISO normalization. -/
def c1DateRule : DateRule :=
  ⟨fun v => if v = "Happy20200101times".data then some (5, 13, some ("2020-01-01".data))
    else none⟩

/-- C1 counterexample to the original claim: after the date-extraction
stage the template invariant is broken.  On `Happy20200101times` the
tokenizer produces pattern `\x7btoken0\x7d`; `DateExtractor._update_pattern`
rewrites it to `\x7btoken0\x7d \x7bdate\x7d \x7btoken2\x7d`, whose
numbered-placeholder indices `[0, 2]` are not the contiguous `0..N-1` for
the `N = 2` still-generic tokens (`Happy` and `times`) of the result. -/
theorem C1_counterexample_date_stage :
    ∃ r', dateProcess [c1DateRule]
        (Tokenizer.tokenize [] [] ("Happy20200101times".data) ("Happy20200101times".data))
        = some r' ∧
      r'.pattern.map scanNums ≠
        some (List.range (((r'.tokens.getD []).filter Token.isGeneric).length)) := by
  have htok :
      Tokenizer.tokenize [] [] ("Happy20200101times".data) ("Happy20200101times".data) =
      { original := "Happy20200101times".data
        cleaned := "Happy20200101times".data
        pattern := some ("\x7btoken0\x7d".data)
        tokens := some [⟨"Happy20200101times".data, tyText, 0⟩] } := by
    simp [Tokenizer.tokenize, Tokenizer.extractPath, Tokenizer.extractPath.findLastSep,
      Tokenizer.extractTokens, Tokenizer.segmentize, Tokenizer.takeUntil,
      Tokenizer.segTokens, Tokenizer.dashPieces, Tokenizer.findDash, Tokenizer.plainTokens,
      Tokenizer.generatePattern, Tokenizer.patternGo, Tokenizer.plainParts, Tokenizer.junkAt,
      Tokenizer.isJunkToken, pyStrip, pyLStrip, pyRStrip, pyIsSpace, Tokenizer.spaces,
      phChars, tokenChars, natChars_lt10, Tokenizer.isSegDelim, Tokenizer.trimToken,
      Tokenizer.trimF, Trimmer.trim, Trimmer.trimLoop, Trimmer.onePass, Trimmer.prefixPass,
      Trimmer.suffixPass, tyText]
  rw [htok]
  refine ⟨({ original := "Happy20200101times".data,
             cleaned := "Happy20200101times".data,
             pattern := some ("\x7btoken0\x7d \x7bdate\x7d \x7btoken2\x7d".data),
             tokens := some [⟨"Happy".data, tyText, 0⟩, ⟨"2020-01-01".data, tyDate, 5⟩,
               ⟨"times".data, tyText, 13⟩],
             studio := none,
             title := none,
             sequence := none,
             group := none,
             studio_code := none } : ParseResult), ?_, ?_⟩
  · simp [dateProcess, findDates, dateSearch, c1DateRule, updatePattern, dateRepls,
      splitTokensWithDates, splitTokenAtDate, pyOrStr, applyRepls, strReplace_nil,
      strReplace_cons, List.isPrefixOf, dateChars, phChars, tokenChars, natChars_lt10,
      pyStrip, pyLStrip, pyRStrip, pyIsSpace, tyText, tyPath, tyDate]
  · simp [scanNums_cons, scanNums_nil, tryPH, tokenChars, natOfDigits, digitVal, pyIsDigit,
      List.dropPrefix?, Char.le_def, Token.isGeneric, tyText, tyDate, tyBracket,
      tyParenthesis, tyCurly, List.range, List.range.loop]

namespace Tokenizer

theorem segTokens_empty_group (k : GKind) (inner : Str) (s : Nat)
    (h : pyStrip inner = []) : segTokens (Seg.group k inner s) = [] := by
  rw [segTokens, if_pos h]

end Tokenizer

/-- C10, amended to the segment level: a delimited group whose content
strips to nothing contributes no token to `_extract_tokens` and no
placeholder to `_generate_pattern`: dropping such a segment from the
segment list leaves both the extracted tokens and the generated pattern
pieces unchanged.  (The original claim's final consequence — that the
whole filename tokenizes like the filename with the group glyphs deleted —
fails because deleting the glyphs can merge the two adjacent plain runs
into one token, see the counterexample.) -/
theorem C10_empty_group_segment (k : Tokenizer.GKind) (inner : Str) (s : Nat)
    (h : pyStrip inner = []) (pre post : List Tokenizer.Seg) (jl : List Bool) (a r : Nat) :
    ((pre ++ Tokenizer.Seg.group k inner s :: post).flatMap Tokenizer.segTokens =
      (pre ++ post).flatMap Tokenizer.segTokens) ∧
    (Tokenizer.patternGo (pre ++ Tokenizer.Seg.group k inner s :: post) jl a r =
      Tokenizer.patternGo (pre ++ post) jl a r) := by
  induction pre generalizing jl a r with
  | nil =>
    constructor
    · simp [Tokenizer.segTokens_empty_group k inner s h]
    · simp only [List.nil_append, Tokenizer.patternGo, if_pos h]
  | cons sg rest ih =>
    constructor
    · have := (ih jl a r).1
      simp only [List.cons_append, List.flatMap_cons, this]
    · cases sg with
      | group k2 inner2 s2 =>
        simp only [List.cons_append, Tokenizer.patternGo, List.append_eq]
        by_cases h2 : pyStrip inner2 = []
        · rw [if_pos h2, if_pos h2, (ih jl a r).2]
        · rw [if_neg h2, if_neg h2]
          by_cases hj : Tokenizer.junkAt jl a = true
          · rw [if_pos hj, if_pos hj, (ih jl (a + 1) r).2]
          · rw [if_neg hj, if_neg hj, (ih jl (a + 1) (r + 1)).2]
      | plain cs s2 =>
        simp only [List.cons_append, Tokenizer.patternGo, List.append_eq]
        rw [(ih jl _ _).2]

/-- Closed instance of the amended C10 theorem at a whitespace-only
bracket group between two plain segments. -/
theorem C10_empty_group_segment_witness :
    pyStrip [' '] = [] ∧
    ((([Tokenizer.Seg.plain ("A".data) 0] ++
        Tokenizer.Seg.group Tokenizer.GKind.br [' '] 2 :: [Tokenizer.Seg.plain ("B".data) 6]).flatMap
          Tokenizer.segTokens =
      ([Tokenizer.Seg.plain ("A".data) 0] ++ [Tokenizer.Seg.plain ("B".data) 6]).flatMap
          Tokenizer.segTokens) ∧
    (Tokenizer.patternGo ([Tokenizer.Seg.plain ("A".data) 0] ++
        Tokenizer.Seg.group Tokenizer.GKind.br [' '] 2 :: [Tokenizer.Seg.plain ("B".data) 6]) [] 0 0 =
      Tokenizer.patternGo ([Tokenizer.Seg.plain ("A".data) 0] ++
        [Tokenizer.Seg.plain ("B".data) 6]) [] 0 0)) :=
  ⟨by decide,
   C10_empty_group_segment Tokenizer.GKind.br [' '] 2 (by decide)
     [Tokenizer.Seg.plain ("A".data) 0] [Tokenizer.Seg.plain ("B".data) 6] [] 0 0⟩

/-- C10 counterexample to the original claim's removal consequence:
`A [] B` yields the two tokens `A` and `B`, while `A  B` (the same string
with the empty group's glyphs deleted) yields the single token `A  B` —
deleting the glyphs merges the adjacent plain runs. -/
theorem C10_counterexample :
    (Tokenizer.tokenize [] [] ("A [] B".data) ("A [] B".data)).tokens.map
      (List.map Token.value) ≠
    (Tokenizer.tokenize [] [] ("A  B".data) ("A  B".data)).tokens.map
      (List.map Token.value) := by
  have h1 : (Tokenizer.tokenize [] [] ("A [] B".data) ("A [] B".data)).tokens =
      some [⟨"A".data, tyText, 0⟩, ⟨"B".data, tyText, 5⟩] := by
    simp [Tokenizer.tokenize, Tokenizer.extractPath, Tokenizer.extractPath.findLastSep,
      Tokenizer.extractTokens, Tokenizer.segmentize, Tokenizer.takeUntil,
      Tokenizer.segTokens, Tokenizer.dashPieces, Tokenizer.findDash, Tokenizer.plainTokens,
      Tokenizer.isJunkToken, pyStrip, pyLStrip, pyRStrip, pyIsSpace,
      Tokenizer.isSegDelim, Tokenizer.trimToken, Tokenizer.trimF, Trimmer.trim,
      Trimmer.trimLoop, Trimmer.onePass, Trimmer.prefixPass, Trimmer.suffixPass, tyText]
  have h2 : (Tokenizer.tokenize [] [] ("A  B".data) ("A  B".data)).tokens =
      some [⟨"A  B".data, tyText, 0⟩] := by
    simp [Tokenizer.tokenize, Tokenizer.extractPath, Tokenizer.extractPath.findLastSep,
      Tokenizer.extractTokens, Tokenizer.segmentize, Tokenizer.takeUntil,
      Tokenizer.segTokens, Tokenizer.dashPieces, Tokenizer.findDash, Tokenizer.plainTokens,
      Tokenizer.isJunkToken, pyStrip, pyLStrip, pyRStrip, pyIsSpace,
      Tokenizer.isSegDelim, Tokenizer.trimToken, Tokenizer.trimF, Trimmer.trim,
      Trimmer.trimLoop, Trimmer.onePass, Trimmer.prefixPass, Trimmer.suffixPass, tyText]
  rw [h1, h2]
  decide

/-- C4, amended: a date match whose normalization failed (returned `None`)
is NOT discarded.  `_find_dates_in_tokens` records the `DateMatch` with
`normalized_date=None` all the same, and `_split_token_at_date` still
splits the token, retyping the matched part to `date` with the raw matched
text as its value (`normalized_date or date_str`). -/
theorem C4_failed_normalization_not_discarded (rules : List DateRule) (t : Token)
    (rest : List Token) (idx s e : Nat) (hty : ¬ t.ty = tyPath)
    (hsearch : dateSearch rules t.value = some (s, e, none)) :
    (findDates rules (t :: rest) idx =
      ⟨(t.value.drop s).take (e - s), s, e, idx, none⟩ :: findDates rules rest (idx + 1)) ∧
    (∃ bs as,
      splitTokenAtDate t ⟨(t.value.drop s).take (e - s), s, e, idx, none⟩ =
        bs ++ ⟨(t.value.drop s).take (e - s), tyDate, t.position + s⟩ :: as) := by
  constructor
  · rw [findDates, if_neg hty, hsearch]
  · refine ⟨(if 0 < s then
        (if pyStrip (t.value.take s) = [] then []
         else [⟨pyStrip (t.value.take s), t.ty, t.position⟩])
      else []),
      (if e < t.value.length then
        (if pyStrip (t.value.drop e) = [] then []
         else [⟨pyStrip (t.value.drop e), t.ty, t.position + e⟩])
      else []), ?_⟩
    rw [splitTokenAtDate]
    simp [pyOrStr]

/-- Closed instance of the amended C4 theorem: a rule matching the whole
of `20200101` with failed normalization is recorded and splits the token
into a raw-valued date token. -/
theorem C4_failed_normalization_not_discarded_witness :
    (¬ (⟨"20200101".data, tyText, 0⟩ : Token).ty = tyPath) ∧
    dateSearch [⟨fun v => if v = "20200101".data then some (0, 8, none) else none⟩]
      (⟨"20200101".data, tyText, 0⟩ : Token).value = some (0, 8, none) ∧
    ((findDates [⟨fun v => if v = "20200101".data then some (0, 8, none) else none⟩]
        [(⟨"20200101".data, tyText, 0⟩ : Token)] 0 =
      ⟨((⟨"20200101".data, tyText, 0⟩ : Token).value.drop 0).take (8 - 0), 0, 8, 0, none⟩ ::
        findDates [⟨fun v => if v = "20200101".data then some (0, 8, none) else none⟩] [] 1) ∧
    (∃ bs as,
      splitTokenAtDate (⟨"20200101".data, tyText, 0⟩ : Token)
          ⟨((⟨"20200101".data, tyText, 0⟩ : Token).value.drop 0).take (8 - 0), 0, 8, 0, none⟩ =
        bs ++ ⟨((⟨"20200101".data, tyText, 0⟩ : Token).value.drop 0).take (8 - 0), tyDate,
          (⟨"20200101".data, tyText, 0⟩ : Token).position + 0⟩ :: as)) :=
  ⟨by decide, by simp [dateSearch],
   C4_failed_normalization_not_discarded
     [⟨fun v => if v = "20200101".data then some (0, 8, none) else none⟩]
     (⟨"20200101".data, tyText, 0⟩ : Token) [] 0 0 8 (by decide) (by simp [dateSearch])⟩

/-- C4 counterexample to the original claim: with a date rule matching all
of `20200101` but failing to normalize, `DateExtractor.process` still
splits: the single text token is retyped to `date` (with the raw matched
text as value) and the pattern's `\x7btoken0\x7d` becomes `\x7bdate\x7d` —
the candidate was not discarded. -/
theorem C4_counterexample :
    dateProcess [⟨fun v => if v = "20200101".data then some (0, 8, none) else none⟩]
      ({ original := "20200101".data,
         cleaned := "20200101".data,
         pattern := some ("\x7btoken0\x7d".data),
         tokens := some [⟨"20200101".data, tyText, 0⟩],
         studio := none,
         title := none,
         sequence := none,
         group := none,
         studio_code := none } : ParseResult) =
    some ({ original := "20200101".data,
            cleaned := "20200101".data,
            pattern := some ("\x7bdate\x7d".data),
            tokens := some [⟨"20200101".data, tyDate, 0⟩],
            studio := none,
            title := none,
            sequence := none,
            group := none,
            studio_code := none } : ParseResult) := by
  simp [dateProcess, findDates, dateSearch, updatePattern, dateRepls,
    splitTokensWithDates, splitTokenAtDate, pyOrStr, applyRepls, strReplace_nil,
    strReplace_cons, List.isPrefixOf, dateChars, phChars, tokenChars, natChars_lt10,
    pyStrip, pyLStrip, pyRStrip, pyIsSpace, tyText, tyPath, tyDate]

/-! ## Studio matching

Embedding of src/modules/studio_matcher.py.  The studios dictionary
(studios.json / studio_aliases.json, absent from the source tree) is the
insertion-ordered map `studios` from lower-cased name to canonical name,
modelled as an association list, together with the `exact_only_keys` set. -/

/-- Association lookup in an insertion-ordered string dictionary. -/
def assocGet (m : List (Str × Str)) (k : Str) : Option Str :=
  (m.find? (fun p => p.1 == k)).map Prod.snd

/-- Lookup in a dictionary keyed by token index. -/
def lookupNat {α : Type} (l : List (Nat × α)) (i : Nat) : Option α :=
  (l.find? (fun p => p.1 == i)).map Prod.snd

/-- Python `str.find`: index of the leftmost occurrence of a substring. -/
def strFind (s sub : Str) : Option Nat := go s 0
where
  go : Str → Nat → Option Nat
    | [], i => if sub.isPrefixOf [] then some i else none
    | c :: rest, i => if sub.isPrefixOf (c :: rest) then some i else go rest (i + 1)

/-- Python `value.split(sep, 1)` for a single-character separator. -/
def splitFirst (v : Str) (sep : Char) : List Str :=
  match v.findIdx? (fun c => c = sep) with
  | some i => [v.take i, v.drop (i + 1)]
  | none => [v]

/-- Python `"sep".join(parts)`. -/
def joinList (sep : Str) : List Str → Str
  | [] => []
  | x :: rest => x ++ rest.flatMap (fun y => sep ++ y)

/-- The `\x7bstudio\x7d` placeholder literal. -/
def studioChars : Str := '\x7b' :: ("studio".data ++ ['\x7d'])

/-- Truthiness of an optional token list (`not result.tokens`). -/
def listTruthy (o : Option (List Token)) : Bool :=
  match o with
  | some l => !l.isEmpty
  | none => false

/-- The scanning loop of `StudioMatcher.process`: absolute token index,
path tokens skipped, case-insensitive exact lookup. -/
def studioMatchesGo (studios : List (Str × Str)) : List Token → Nat → List (Nat × Str)
  | [], _ => []
  | t :: rest, i =>
    if t.ty = tyPath then studioMatchesGo studios rest (i + 1)
    else
      match assocGet studios (pyLower t.value) with
      | some canonical => (i, canonical) :: studioMatchesGo studios rest (i + 1)
      | none => studioMatchesGo studios rest (i + 1)

/-- The token-rewriting loop of `StudioMatcher._update_tokens_and_pattern`. -/
def exactNewTokens (ms : List (Nat × Str)) : List Token → Nat → List Token
  | [], _ => []
  | t :: rest, i =>
    if t.ty = tyPath then t :: exactNewTokens ms rest (i + 1)
    else
      match lookupNat ms i with
      | some canonical => ⟨canonical, tyStudio, t.position⟩ :: exactNewTokens ms rest (i + 1)
      | none => t :: exactNewTokens ms rest (i + 1)

/-- The replacement-building loop of `StudioMatcher._rebuild_pattern`:
path tokens do not advance the real token index. -/
def exactRepls (ms : List (Nat × Str)) : List Token → Nat → Nat → List (Str × Str)
  | [], _, _ => []
  | t :: rest, i, realIdx =>
    if t.ty = tyPath then exactRepls ms rest (i + 1) realIdx
    else if (lookupNat ms i).isSome then
      (phChars realIdx, studioChars) :: exactRepls ms rest (i + 1) (realIdx + 1)
    else exactRepls ms rest (i + 1) (realIdx + 1)

/-- `StudioMatcher._rebuild_pattern`: sequential global `str.replace` of
each recorded placeholder, in insertion order. -/
def rebuildExact (pat : Option Str) (repls : List (Str × Str)) : Str :=
  let p := pat.getD []
  if p = [] then p
  else repls.foldl (fun acc r => strReplace acc r.1 r.2) p

/-- `StudioMatcher.process` (exact pass). -/
def studioProcess (studios : List (Str × Str)) (r : ParseResult) : ParseResult :=
  if !listTruthy r.tokens || !optTruthy r.pattern then r
  else
    match studioMatchesGo studios (r.tokens.getD []) 0 with
    | [] => r
    | (i0, c0) :: restm =>
      { r with
        tokens := some (exactNewTokens ((i0, c0) :: restm) (r.tokens.getD []) 0)
        pattern := some (rebuildExact r.pattern (exactRepls ((i0, c0) :: restm)
          (r.tokens.getD []) 0 0))
        studio := some (pyOrStr r.studio c0) }

/-- Part scan of `process_dash_fallback`: first part (in order) whose
stripped text has length at least 2 and matches a studio. -/
def partsScan (studios : List (Str × Str)) : List Str → Nat → Option (Str × Nat)
  | [], _ => none
  | p :: rest, idx =>
    let pc := pyStrip p
    if pc.length < 2 then partsScan studios rest (idx + 1)
    else
      match assocGet studios (pyLower pc) with
      | some canonical => some (canonical, idx)
      | none => partsScan studios rest (idx + 1)

/-- The scanning loop of `process_dash_fallback`: text tokens with an
internal dash (no spaced ` - ` delimiter), split at the first dash. -/
def dashCandidates (studios : List (Str × Str)) :
    List Token → Nat → List (Nat × (Str × Nat × List Str))
  | [], _ => []
  | t :: rest, i =>
    if t.ty = tyPath ∨ ¬ t.ty = tyText then dashCandidates studios rest (i + 1)
    else if t.value.contains '-' then
      if (strFind t.value (" - ".data)).isSome then dashCandidates studios rest (i + 1)
      else
        match partsScan studios (splitFirst t.value '-') 0 with
        | some (canonical, partIdx) =>
          (i, (canonical, partIdx, splitFirst t.value '-')) :: dashCandidates studios rest (i + 1)
        | none => dashCandidates studios rest (i + 1)
    else dashCandidates studios rest (i + 1)

/-- Token construction for one dash-split: non-empty stripped parts become
tokens (the matched part as the canonical studio), with their output
non-path indices. -/
def buildDashSplit (canonical : Str) (spIdx : Nat) :
    List Str → Nat → Nat → Nat → List Token × List (Nat × Bool) × Nat
  | [], _, _, cur => ([], [], cur)
  | p :: rest, partIdx, pos, cur =>
    let ps := pyStrip p
    if ps = [] then buildDashSplit canonical spIdx rest (partIdx + 1) pos cur
    else if partIdx = spIdx then
      let r := buildDashSplit canonical spIdx rest (partIdx + 1) pos (cur + 1)
      (⟨canonical, tyStudio, pos⟩ :: r.1, (cur, true) :: r.2.1, r.2.2)
    else
      let r := buildDashSplit canonical spIdx rest (partIdx + 1) pos (cur + 1)
      (⟨ps, tyText, pos⟩ :: r.1, (cur, false) :: r.2.1, r.2.2)

/-- First pass of `_split_tokens_and_update_pattern`: rebuilds the token
list and the old-real-index to new-indices mapping; `cur` counts non-path
tokens already emitted. -/
def splitDashGo (cands : List (Nat × (Str × Nat × List Str))) :
    List Token → Nat → Nat → Nat → List Token × List (Nat × List (Nat × Bool))
  | [], _, _, _ => ([], [])
  | t :: rest, i, realIdx, cur =>
    if t.ty = tyPath then
      let r := splitDashGo cands rest (i + 1) realIdx cur
      (t :: r.1, r.2)
    else
      match lookupNat cands i with
      | some (canonical, partIdx, parts) =>
        let st := buildDashSplit canonical partIdx parts 0 t.position cur
        let r := splitDashGo cands rest (i + 1) (realIdx + 1) st.2.2
        (st.1 ++ r.1, (realIdx, st.2.1) :: r.2)
      | none =>
        let r := splitDashGo cands rest (i + 1) (realIdx + 1) (cur + 1)
        (t :: r.1, (realIdx, [(cur, false)]) :: r.2)

/-- `_rebuild_pattern_after_split` and its substring twin, which differ
only in the joining separator (`-` for dash splits, nothing for substring
splits): each old placeholder is globally replaced, in insertion order,
by the joined new placeholders (cascading through earlier results). -/
def rebuildAfterSplit (pat : Str) (mapping : List (Nat × List (Nat × Bool))) (sep : Str) : Str :=
  if pat = [] then pat
  else
    mapping.foldl (fun acc om =>
      let old := phChars om.1
      let repl :=
        match om.2 with
        | [(newIdx, isStudio)] => if isStudio then studioChars else phChars newIdx
        | l => joinList sep (l.map (fun ni => if ni.2 then studioChars else phChars ni.1))
      strReplace acc old repl) pat

/-- `StudioMatcher.process_dash_fallback`. -/
def processDashFallback (studios : List (Str × Str)) (r : ParseResult) : ParseResult :=
  if optTruthy r.studio then r
  else if !listTruthy r.tokens || !optTruthy r.pattern then r
  else
    match dashCandidates studios (r.tokens.getD []) 0 with
    | [] => r
    | (i0, (c0, p0, parts0)) :: restc =>
      let sp := splitDashGo ((i0, (c0, p0, parts0)) :: restc) (r.tokens.getD []) 0 0 0
      { r with
        tokens := some sp.1
        pattern := some (rebuildAfterSplit (r.pattern.getD []) sp.2 ("-".data))
        studio := some (pyOrStr r.studio c0) }

/-- Longest-substring scan of `process_partial_match_fallback`: studio
keys of length at least 3 that are not exact-only, leftmost occurrence,
strictly longer keys win; the accumulator carries the best
`(canonical, start, stop)` and its key length. -/
def partialScan (exactOnly : List Str) (tokenLower : Str) :
    List (Str × Str) → Option (Str × Nat × Nat) × Nat → Option (Str × Nat × Nat) × Nat
  | [], acc => acc
  | (key, canonical) :: rest, acc =>
    if key.length < 3 then partialScan exactOnly tokenLower rest acc
    else if exactOnly.contains key then partialScan exactOnly tokenLower rest acc
    else
      match strFind tokenLower key with
      | some pos =>
        if key.length > acc.2 then
          partialScan exactOnly tokenLower rest
            (some (canonical, pos, pos + key.length), key.length)
        else partialScan exactOnly tokenLower rest acc
      | none => partialScan exactOnly tokenLower rest acc

/-- The scanning loop of `process_partial_match_fallback`. -/
def partialCandidates (studios : List (Str × Str)) (exactOnly : List Str) :
    List Token → Nat → List (Nat × (Str × Nat × Nat))
  | [], _ => []
  | t :: rest, i =>
    if t.ty = tyPath ∨ ¬ t.ty = tyText then partialCandidates studios exactOnly rest (i + 1)
    else
      match (partialScan exactOnly (pyLower t.value) studios (none, 0)).1 with
      | some (canonical, s, e) =>
        (i, (canonical, s, e)) :: partialCandidates studios exactOnly rest (i + 1)
      | none => partialCandidates studios exactOnly rest (i + 1)

/-- Token construction for one substring split: stripped prefix (when
non-empty), the canonical studio, stripped suffix (when non-empty). -/
def buildSubSplit (canonical value : Str) (spos epos pos cur : Nat) :
    List Token × List (Nat × Bool) × Nat :=
  let pre := pyStrip (value.take spos)
  let suf := pyStrip (value.drop epos)
  let a : List Token × List (Nat × Bool) × Nat :=
    if pre = [] then ([], [], cur) else ([⟨pre, tyText, pos⟩], [(cur, false)], cur + 1)
  let b : List Token × List (Nat × Bool) × Nat :=
    (a.1 ++ [⟨canonical, tyStudio, pos⟩], a.2.1 ++ [(a.2.2, true)], a.2.2 + 1)
  if suf = [] then b
  else (b.1 ++ [⟨suf, tyText, pos⟩], b.2.1 ++ [(b.2.2, false)], b.2.2 + 1)

/-- First pass of `_split_substring_tokens_and_update_pattern`. -/
def splitSubGo (cands : List (Nat × (Str × Nat × Nat))) :
    List Token → Nat → Nat → Nat → List Token × List (Nat × List (Nat × Bool))
  | [], _, _, _ => ([], [])
  | t :: rest, i, realIdx, cur =>
    if t.ty = tyPath then
      let r := splitSubGo cands rest (i + 1) realIdx cur
      (t :: r.1, r.2)
    else
      match lookupNat cands i with
      | some (canonical, spos, epos) =>
        let st := buildSubSplit canonical t.value spos epos t.position cur
        let r := splitSubGo cands rest (i + 1) (realIdx + 1) st.2.2
        (st.1 ++ r.1, (realIdx, st.2.1) :: r.2)
      | none =>
        let r := splitSubGo cands rest (i + 1) (realIdx + 1) (cur + 1)
        (t :: r.1, (realIdx, [(cur, false)]) :: r.2)

/-- `StudioMatcher.process_partial_match_fallback`. -/
def processPartialMatchFallback (studios : List (Str × Str)) (exactOnly : List Str)
    (r : ParseResult) : ParseResult :=
  if optTruthy r.studio then r
  else if !listTruthy r.tokens || !optTruthy r.pattern then r
  else
    match partialCandidates studios exactOnly (r.tokens.getD []) 0 with
    | [] => r
    | (i0, (c0, s0, e0)) :: restc =>
      let sp := splitSubGo ((i0, (c0, s0, e0)) :: restc) (r.tokens.getD []) 0 0 0
      { r with
        tokens := some sp.1
        pattern := some (rebuildAfterSplit (r.pattern.getD []) sp.2 [])
        studio := some (pyOrStr r.studio c0) }

/-- C5: once a result's studio is a non-empty value, the dash and partial
fallback passes return their input unchanged (their first guard), and the
exact pass keeps the existing studio value (`result.studio or ...`). -/
theorem C5_studio_never_overwritten (studios : List (Str × Str)) (exactOnly : List Str)
    (r : ParseResult) (s : Str) (hs : r.studio = some s) (hne : ¬ s = []) :
    processDashFallback studios r = r ∧
    processPartialMatchFallback studios exactOnly r = r ∧
    (studioProcess studios r).studio = some s := by
  have htr : optTruthy r.studio = true := by
    rw [hs, optTruthy]
    simp [hne]
  refine ⟨?_, ?_, ?_⟩
  · rw [processDashFallback, if_pos htr]
  · rw [processPartialMatchFallback, if_pos htr]
  · rw [studioProcess]
    split
    next => exact hs
    next =>
      split
      next => exact hs
      next i0 c0 restm heq =>
        show some (pyOrStr r.studio c0) = some s
        rw [hs, pyOrStr]
        simp [hne]

/-- Closed instance of the C5 theorem on a result whose studio is
already `Acme` and whose single text token matches a configured studio. -/
theorem C5_studio_never_overwritten_witness :
    (({ original := "x".data,
        cleaned := "x".data,
        pattern := some ("\x7btoken0\x7d".data),
        tokens := some [⟨"other".data, tyText, 0⟩],
        studio := some ("Acme".data),
        title := none,
        sequence := none,
        group := none,
        studio_code := none } : ParseResult).studio = some ("Acme".data)) ∧
    (¬ ("Acme".data : Str) = []) ∧
    (processDashFallback [("other".data, "Other".data)]
      ({ original := "x".data,
         cleaned := "x".data,
         pattern := some ("\x7btoken0\x7d".data),
         tokens := some [⟨"other".data, tyText, 0⟩],
         studio := some ("Acme".data),
         title := none,
         sequence := none,
         group := none,
         studio_code := none } : ParseResult) =
      ({ original := "x".data,
         cleaned := "x".data,
         pattern := some ("\x7btoken0\x7d".data),
         tokens := some [⟨"other".data, tyText, 0⟩],
         studio := some ("Acme".data),
         title := none,
         sequence := none,
         group := none,
         studio_code := none } : ParseResult) ∧
    processPartialMatchFallback [("other".data, "Other".data)] []
      ({ original := "x".data,
         cleaned := "x".data,
         pattern := some ("\x7btoken0\x7d".data),
         tokens := some [⟨"other".data, tyText, 0⟩],
         studio := some ("Acme".data),
         title := none,
         sequence := none,
         group := none,
         studio_code := none } : ParseResult) =
      ({ original := "x".data,
         cleaned := "x".data,
         pattern := some ("\x7btoken0\x7d".data),
         tokens := some [⟨"other".data, tyText, 0⟩],
         studio := some ("Acme".data),
         title := none,
         sequence := none,
         group := none,
         studio_code := none } : ParseResult) ∧
    (studioProcess [("other".data, "Other".data)]
      ({ original := "x".data,
         cleaned := "x".data,
         pattern := some ("\x7btoken0\x7d".data),
         tokens := some [⟨"other".data, tyText, 0⟩],
         studio := some ("Acme".data),
         title := none,
         sequence := none,
         group := none,
         studio_code := none } : ParseResult)).studio = some ("Acme".data)) :=
  ⟨rfl, by decide,
   C5_studio_never_overwritten [("other".data, "Other".data)] []
     ({ original := "x".data,
        cleaned := "x".data,
        pattern := some ("\x7btoken0\x7d".data),
        tokens := some [⟨"other".data, tyText, 0⟩],
        studio := some ("Acme".data),
        title := none,
        sequence := none,
        group := none,
        studio_code := none } : ParseResult) ("Acme".data) rfl (by decide)⟩

/-! ## Studio code finding

Embedding of src/modules/studio_code_finder.py.  The rule table
(studio_codes.json, absent from the source tree) yields one `CodeRule`
per compiled pattern: the compiled regex together with its `code_group`
resolution (including the `IndexError` fallback to group 0) is abstracted
as `rmatch`, returning the raw code text and its span in the stripped
token value; the `_normalize_code` flag pipeline, driven by the entry's
external `normalize` flags, is abstracted as the rule's `normalize`
function. -/

structure CodeRule where
  studio : Option Str
  relationship : Str
  rmatch : Str → Option (Str × Nat × Nat)
  normalize : Str → Str

/-- ASCII alphanumeric (Python regex `[A-Za-z0-9]`). -/
def pyIsAlnum (c : Char) : Bool := pyIsAlpha c || pyIsDigit c

/-- The `\x7bstudio_code\x7d` placeholder literal. -/
def codeChars : Str := '\x7b' :: ("studio_code".data ++ ['\x7d'])

/-- The rule loop of `StudioCodeFinder._match_studio_code`, over the
pre-stripped token value `nv` and the stripped-lowered studio context
`cur`. -/
def codeRuleScan (nv cur : Str) : List CodeRule → Option (Option Str × Str × (Nat × Nat))
  | [] => none
  | r :: rest =>
    let proceed : Bool :=
      if r.relationship = "requires".data then
        if cur = [] then false
        else
          let required := pyLower (pyStrip (r.studio.getD []))
          if ¬ required = [] ∧ ¬ required = cur then false else true
      else true
    if proceed then
      match r.rmatch nv with
      | some (raw, s, e) =>
        let n := r.normalize raw
        some (r.studio, (if n = [] then raw else n), (s, e))
      | none => codeRuleScan nv cur rest
    else codeRuleScan nv cur rest

/-- `StudioCodeFinder._match_studio_code`. -/
def matchStudioCode (rules : List CodeRule) (tokenValue : Str)
    (currentStudio : Option Str) : Option (Option Str × Str × (Nat × Nat)) :=
  codeRuleScan (pyStrip tokenValue) (pyLower (pyStrip (currentStudio.getD []))) rules

/-- The scanning loop of `StudioCodeFinder.process`: path and studio
tokens are skipped; the studio context is the result's studio, fixed for
the whole loop. -/
def codeMatchesGo (rules : List CodeRule) (cur : Option Str) :
    List Token → Nat → List (Nat × (Option Str × Str × (Nat × Nat)))
  | [], _ => []
  | t :: rest, i =>
    if t.ty = tyPath ∨ t.ty = tyStudio then codeMatchesGo rules cur rest (i + 1)
    else
      match matchStudioCode rules t.value cur with
      | some info => (i, info) :: codeMatchesGo rules cur rest (i + 1)
      | none => codeMatchesGo rules cur rest (i + 1)

/-- `StudioCodeFinder._extract_suffix_after_code`. -/
def extractSuffixAfterCode (v : Str) (span : Nat × Nat) : Option Str :=
  if v = [] then none
  else
    let e := span.2
    if e = 0 ∨ v.length ≤ e then none
    else
      let rem := pyStrip ((v.drop e).dropWhile (fun c => !pyIsAlnum c))
      if rem = [] then none else some rem

/-- First pass of `StudioCodeFinder._update_tokens_and_pattern`: the
matched token becomes a `studio_code` token, followed by a text token for
any non-empty suffix after the code span. -/
def splitCodeGo (cands : List (Nat × (Option Str × Str × (Nat × Nat)))) :
    List Token → Nat → Nat → Nat → List Token × List (Nat × List (Nat × Bool))
  | [], _, _, _ => ([], [])
  | t :: rest, i, realIdx, cur =>
    if t.ty = tyPath then
      let r := splitCodeGo cands rest (i + 1) realIdx cur
      (t :: r.1, r.2)
    else
      match lookupNat cands i with
      | some (_, code, span) =>
        match extractSuffixAfterCode t.value span with
        | some remv =>
          let r := splitCodeGo cands rest (i + 1) (realIdx + 1) (cur + 2)
          (⟨code, tyStudioCode, t.position⟩ :: ⟨remv, tyText, t.position⟩ :: r.1,
           (realIdx, [(cur, true), (cur + 1, false)]) :: r.2)
        | none =>
          let r := splitCodeGo cands rest (i + 1) (realIdx + 1) (cur + 1)
          (⟨code, tyStudioCode, t.position⟩ :: r.1, (realIdx, [(cur, true)]) :: r.2)
      | none =>
        let r := splitCodeGo cands rest (i + 1) (realIdx + 1) (cur + 1)
        (t :: r.1, (realIdx, [(cur, false)]) :: r.2)

/-- `StudioCodeFinder._rebuild_pattern_after_split`: a single
left-to-right `re.sub` pass over `\x7btokenN\x7d` placeholders, mapping
each old index through the split mapping. -/
def rewriteTokenPlaceholders (mapping : List (Nat × List (Nat × Bool))) (l : Str) : Str :=
  match l with
  | [] => []
  | c :: rest =>
    if c = '\x7b' then
      match h : tryPH rest with
      | some (n, rest') =>
        have : rest'.length < rest.length := tryPH_len h
        (match lookupNat mapping n with
         | some [] => phChars n
         | some [(ni, isCode)] => if isCode then codeChars else phChars ni
         | some ls =>
           joinList [' '] (ls.map (fun p => if p.2 then codeChars else phChars p.1))
         | none => phChars n) ++ rewriteTokenPlaceholders mapping rest'
      | none => '\x7b' :: rewriteTokenPlaceholders mapping rest
    else c :: rewriteTokenPlaceholders mapping rest
termination_by l.length
decreasing_by
  · simp; omega
  · simp
  · simp

/-- Pattern rebuild of the code finder (`if not pattern: return pattern or ""`). -/
def rebuildCodePattern (pat : Option Str) (mapping : List (Nat × List (Nat × Bool))) : Str :=
  match pat with
  | none => []
  | some p => if p = [] then [] else rewriteTokenPlaceholders mapping p

/-- First match naming a (truthy) studio, in token order. -/
def firstNamedStudio : List (Nat × (Option Str × Str × (Nat × Nat))) → Option Str
  | [] => none
  | (_, (st, _, _)) :: rest => if optTruthy st then st else firstNamedStudio rest

/-- `StudioCodeFinder.process`. -/
def codeProcess (rules : List CodeRule) (r : ParseResult) : ParseResult :=
  if !listTruthy r.tokens || !optTruthy r.pattern then r
  else
    match codeMatchesGo rules r.studio (r.tokens.getD []) 0 with
    | [] => r
    | (i0, (st0, code0, span0)) :: restc =>
      let sp := splitCodeGo ((i0, (st0, code0, span0)) :: restc) (r.tokens.getD []) 0 0 0
      { r with
        tokens := some sp.1
        pattern := some (rebuildCodePattern r.pattern sp.2)
        studio :=
          (if optTruthy r.studio then r.studio
           else
             match firstNamedStudio ((i0, (st0, code0, span0)) :: restc) with
             | some s => some s
             | none => r.studio)
        studio_code := if optTruthy r.studio_code then r.studio_code else some code0 }

/-- C6: a `requires` rule with a named owner matches only under a
non-empty studio context equal, after strip and lower, to the owner; a
non-`requires` (`can_set`) rule is tested identically with or without a
studio context; and when the result has no studio set, `process` writes
the first match's named studio into the studio field. -/
theorem C6_code_rule_gating (rule rule2 : CodeRule) (v : Str) (cur : Option Str)
    (rules : List CodeRule) (r : ParseResult) (s : Str)
    (hreq : rule.relationship = "requires".data)
    (how : ¬ pyLower (pyStrip (rule.studio.getD [])) = [])
    (hr2 : ¬ rule2.relationship = "requires".data)
    (hts : listTruthy r.tokens = true) (hps : optTruthy r.pattern = true)
    (hnos : optTruthy r.studio = false)
    (hfirst : firstNamedStudio (codeMatchesGo rules r.studio (r.tokens.getD []) 0) = some s) :
    (¬ matchStudioCode [rule] v cur = none →
      (¬ pyLower (pyStrip (cur.getD [])) = [] ∧
        pyLower (pyStrip (cur.getD [])) = pyLower (pyStrip (rule.studio.getD [])))) ∧
    (matchStudioCode [rule2] v cur = matchStudioCode [rule2] v none) ∧
    ((codeProcess rules r).studio = some s) := by
  refine ⟨?_, ?_, ?_⟩
  · intro hne
    rw [matchStudioCode, codeRuleScan] at hne
    simp only [if_pos hreq] at hne
    by_cases hc : pyLower (pyStrip (cur.getD [])) = []
    · exfalso
      rw [if_pos hc] at hne
      simp only [if_neg (by simp : ¬ (false = true))] at hne
      rw [codeRuleScan] at hne
      exact hne rfl
    · rw [if_neg hc] at hne
      by_cases heq : pyLower (pyStrip (rule.studio.getD [])) = pyLower (pyStrip (cur.getD []))
      · exact ⟨hc, heq.symm⟩
      · exfalso
        have hcond : ¬ pyLower (pyStrip (rule.studio.getD [])) = [] ∧
            ¬ pyLower (pyStrip (rule.studio.getD [])) = pyLower (pyStrip (cur.getD [])) :=
          ⟨how, heq⟩
        rw [if_pos hcond] at hne
        simp only [if_neg (by simp : ¬ (false = true))] at hne
        rw [codeRuleScan] at hne
        exact hne rfl
  · cases hm : rule2.rmatch (pyStrip v) with
    | some p => simp [matchStudioCode, codeRuleScan, hr2, hm]
    | none => simp [matchStudioCode, codeRuleScan, hr2, hm]
  · rw [codeProcess]
    rw [if_neg (by rw [hts, hps]; simp)]
    split
    next heq => rw [heq] at hfirst; rw [firstNamedStudio] at hfirst; exact absurd hfirst (by simp)
    next i0 st0 code0 span0 restc heq =>
      rw [heq] at hfirst
      simp only [hnos]
      rw [if_neg (by simp), hfirst]

/-- A `requires` rule owned by Acme that never matches (the regex part is
irrelevant for the gating witness). -/
def c6ReqRule : CodeRule := ⟨some ("Acme".data), "requires".data, fun _ => none, fun c => c⟩

/-- A `can_set` rule with no owner. -/
def c6SetRule : CodeRule := ⟨none, "can_set".data, fun _ => none, fun c => c⟩

/-- A `can_set` rule owned by Acme whose pattern matches the whole token
`123`. -/
def c6MatchRule : CodeRule :=
  ⟨some ("Acme".data), "can_set".data,
   fun nv => if nv = "123".data then some ("123".data, 0, 3) else none, fun c => c⟩

/-- Input for the C6 witness: one text token `123`, no studio yet. -/
def c6Result : ParseResult :=
  { original := "123".data
    cleaned := "123".data
    pattern := some ("\x7btoken0\x7d".data)
    tokens := some [⟨"123".data, tyText, 0⟩]
    studio := none
    title := none
    sequence := none
    group := none
    studio_code := none }

/-- Closed instance of the C6 theorem. -/
theorem C6_code_rule_gating_witness :
    (c6ReqRule.relationship = "requires".data) ∧
    (¬ pyLower (pyStrip (c6ReqRule.studio.getD [])) = []) ∧
    (¬ c6SetRule.relationship = "requires".data) ∧
    (listTruthy c6Result.tokens = true) ∧
    (optTruthy c6Result.pattern = true) ∧
    (optTruthy c6Result.studio = false) ∧
    (firstNamedStudio
      (codeMatchesGo [c6MatchRule] c6Result.studio (c6Result.tokens.getD []) 0) =
      some ("Acme".data)) ∧
    ((¬ matchStudioCode [c6ReqRule] ("123".data) (some ("Acme".data)) = none →
      (¬ pyLower (pyStrip ((some ("Acme".data) : Option Str).getD [])) = [] ∧
        pyLower (pyStrip ((some ("Acme".data) : Option Str).getD [])) =
          pyLower (pyStrip (c6ReqRule.studio.getD [])))) ∧
    (matchStudioCode [c6SetRule] ("123".data) (some ("Acme".data)) =
      matchStudioCode [c6SetRule] ("123".data) none) ∧
    ((codeProcess [c6MatchRule] c6Result).studio = some ("Acme".data))) :=
  ⟨rfl, by decide, by decide, rfl, rfl, rfl, by decide,
   C6_code_rule_gating c6ReqRule c6SetRule ("123".data) (some ("Acme".data)) [c6MatchRule]
     c6Result ("Acme".data) rfl (by decide) (by decide) rfl rfl rfl (by decide)⟩

/-! ## Final stage: bare scene-number inference

Embedding of `FinalStageExtractor._infer_bare_scene_numbers` and
`_consume_numeric_scene_token` (src/modules/final_stage_extractor.py),
with `_is_numeric_only` (`^\d+$`) and `_is_meaningful_text`
(`\b[a-zA-Z]{2,}\b` searched anywhere: some maximal word-character run
consists purely of letters and has length at least 2). -/

/-- Regex word character (`\w` over ASCII): letters, digits, underscore. -/
def isWordChar (c : Char) : Bool := pyIsAlnum c || (c == '_')

/-- Maximal runs of word characters. -/
def wordRuns : Str → List Str
  | [] => []
  | c :: rest =>
    if hwc : isWordChar c then
      let run := (c :: rest).takeWhile isWordChar
      let rest' := (c :: rest).dropWhile isWordChar
      have : rest'.length < rest.length + 1 := by
        have hr : rest' = rest.dropWhile isWordChar := by
          simp [rest', List.dropWhile_cons, hwc]
        have hle := (List.dropWhile_suffix isWordChar (l := rest)).length_le
        rw [hr]
        omega
      run :: wordRuns rest'
    else wordRuns rest
termination_by s => s.length

/-- `FinalStageExtractor._is_numeric_only`. -/
def isNumericOnly (s : Str) : Bool := !s.isEmpty && s.all pyIsDigit

/-- `FinalStageExtractor._is_meaningful_text`. -/
def isMeaningful (s : Str) : Bool :=
  (wordRuns s).any (fun run => decide (2 ≤ run.length) && run.all pyIsAlpha)

/-- The token types consumed by earlier stages. -/
def c7Consumed : List Str := [tyPath, tyDate, tyStudio, tyStudioCode, tyPerformers, tySequence]

/-- `(tokens[idx].value or "")`. -/
def c7ValueAt (tokens : List Token) (idx : Nat) : Str :=
  ((tokens.get? idx).map Token.value).getD []

/-- The unclaimed, non-blank candidate indices of the bare-number pass. -/
def c7Candidates (tokens : List Token) : List Nat :=
  (List.range tokens.length).filter (fun idx =>
    match tokens.get? idx with
    | some t => !(c7Consumed.contains t.ty) && !((pyStrip t.value).isEmpty)
    | none => false)

/-- The numeric candidates. -/
def c7NumericCandidates (tokens : List Token) : List Nat :=
  (c7Candidates tokens).filter (fun idx => isNumericOnly (pyStrip (c7ValueAt tokens idx)))

/-- `meaningful_at` over candidate positions (callers establish the lower
bound before subtracting). -/
def c7MeaningfulAt (tokens : List Token) (cp : Nat) : Bool :=
  let cands := c7Candidates tokens
  if cp < cands.length then isMeaningful (pyStrip (c7ValueAt tokens (cands.getD cp 0)))
  else false

/-- Retype the token at an index, keeping value and position. -/
def retypeAt (tokens : List Token) (i : Nat) (newTy : Str) : List Token :=
  match tokens.get? i with
  | some t => tokens.set i ⟨t.value, newTy, t.position⟩
  | none => tokens

/-- `FinalStageExtractor._consume_numeric_scene_token` (over the token at
`numIdx`), fused with the caller: returns the updated tokens and sequence
map. -/
def consumeNumericSceneToken (tokens : List Token) (seq : List (Str × Nat)) (numIdx : Nat) :
    List Token × List (Str × Nat) :=
  let value := pyStrip (c7ValueAt tokens numIdx)
  if ¬ isNumericOnly value = true then (tokens, seq)
  else if 3 < value.length then (tokens, seq)
  else (retypeAt tokens numIdx tySequence, dictSet seq ("scene".data) (natOfDigits value))

/-- `FinalStageExtractor._infer_bare_scene_numbers`. -/
def inferBareSceneNumbers (tokens : List Token) (seq : List (Str × Nat)) :
    List Token × List (Str × Nat) :=
  if dictHas seq ("scene".data) then (tokens, seq)
  else
    match c7NumericCandidates tokens with
    | [numIdx] =>
      let cands := c7Candidates tokens
      let pos := cands.indexOf numIdx
      if 0 < pos ∧ pos < cands.length - 1 ∧
          c7MeaningfulAt tokens (pos - 1) = true ∧ c7MeaningfulAt tokens (pos + 1) = true then
        consumeNumericSceneToken tokens seq numIdx
      else (tokens, seq)
    | _ => (tokens, seq)

/-- C7: the bare-numeric pass records `scene` and retypes the token
exactly when: no `scene` key is present, there is exactly one numeric
candidate among the unclaimed non-blank tokens, it sits strictly between
two meaningful candidates, and its stripped value has at most 3 digits;
in every other case the pass returns its input unchanged. -/
theorem C7_bare_scene_exact (tokens : List Token) (seq : List (Str × Nat)) :
    (dictHas seq ("scene".data) = true → inferBareSceneNumbers tokens seq = (tokens, seq)) ∧
    (¬ (c7NumericCandidates tokens).length = 1 →
      inferBareSceneNumbers tokens seq = (tokens, seq)) ∧
    (∀ numIdx, c7NumericCandidates tokens = [numIdx] →
      dictHas seq ("scene".data) = false →
      ((¬ (0 < (c7Candidates tokens).indexOf numIdx ∧
          (c7Candidates tokens).indexOf numIdx < (c7Candidates tokens).length - 1 ∧
          c7MeaningfulAt tokens ((c7Candidates tokens).indexOf numIdx - 1) = true ∧
          c7MeaningfulAt tokens ((c7Candidates tokens).indexOf numIdx + 1) = true) →
        inferBareSceneNumbers tokens seq = (tokens, seq)) ∧
      ((0 < (c7Candidates tokens).indexOf numIdx ∧
          (c7Candidates tokens).indexOf numIdx < (c7Candidates tokens).length - 1 ∧
          c7MeaningfulAt tokens ((c7Candidates tokens).indexOf numIdx - 1) = true ∧
          c7MeaningfulAt tokens ((c7Candidates tokens).indexOf numIdx + 1) = true) →
        ((3 < (pyStrip (c7ValueAt tokens numIdx)).length →
          inferBareSceneNumbers tokens seq = (tokens, seq)) ∧
        ((pyStrip (c7ValueAt tokens numIdx)).length ≤ 3 →
          inferBareSceneNumbers tokens seq =
            (retypeAt tokens numIdx tySequence,
             dictSet seq ("scene".data) (natOfDigits (pyStrip (c7ValueAt tokens numIdx))))))))) := by
  refine ⟨?_, ?_, ?_⟩
  · intro h
    rw [inferBareSceneNumbers, if_pos h]
  · intro h
    by_cases hd : dictHas seq ("scene".data) = true
    · rw [inferBareSceneNumbers, if_pos hd]
    · rw [inferBareSceneNumbers, if_neg hd]
      split
      next numIdx heq =>
        exfalso
        exact h (by rw [heq]; rfl)
      next => rfl
  · intro numIdx heq hd
    have hnum : isNumericOnly (pyStrip (c7ValueAt tokens numIdx)) = true := by
      have hmem : numIdx ∈ c7NumericCandidates tokens := by rw [heq]; simp
      exact (List.mem_filter.mp hmem).2
    constructor
    · intro hcond
      rw [inferBareSceneNumbers, if_neg (by simp [hd])]
      split
      next numIdx2 heq2 =>
        rw [heq] at heq2
        injection heq2 with h1 _
        subst h1
        rw [if_neg hcond]
      next hne => exact absurd heq (hne numIdx)
    · intro hcond
      constructor
      · intro hlen
        rw [inferBareSceneNumbers, if_neg (by simp [hd])]
        split
        next numIdx2 heq2 =>
          rw [heq] at heq2
          injection heq2 with h1 _
          subst h1
          rw [if_pos hcond, consumeNumericSceneToken]
          rw [if_neg (by simp [hnum]), if_pos hlen]
        next hne => exact absurd heq (hne numIdx)
      · intro hlen
        rw [inferBareSceneNumbers, if_neg (by simp [hd])]
        split
        next numIdx2 heq2 =>
          rw [heq] at heq2
          injection heq2 with h1 _
          subst h1
          rw [if_pos hcond, consumeNumericSceneToken]
          rw [if_neg (by simp [hnum]), if_neg (by omega)]
        next hne => exact absurd heq (hne numIdx)

/-- Tokens for the C7 witness: a numeric token strictly between two
meaningful text tokens. -/
def c7Toks : List Token :=
  [⟨"Hello".data, tyText, 0⟩, ⟨"42".data, tyText, 6⟩, ⟨"World".data, tyText, 9⟩]

/-- Closed instance of the C7 theorem on `Hello 42 World`. -/
theorem C7_bare_scene_exact_witness :
    (c7NumericCandidates c7Toks = [1]) ∧
    (dictHas [] ("scene".data) = false) ∧
    ((0 < (c7Candidates c7Toks).indexOf 1 ∧
      (c7Candidates c7Toks).indexOf 1 < (c7Candidates c7Toks).length - 1 ∧
      c7MeaningfulAt c7Toks ((c7Candidates c7Toks).indexOf 1 - 1) = true ∧
      c7MeaningfulAt c7Toks ((c7Candidates c7Toks).indexOf 1 + 1) = true)) ∧
    ((pyStrip (c7ValueAt c7Toks 1)).length ≤ 3) ∧
    inferBareSceneNumbers c7Toks [] =
      (retypeAt c7Toks 1 tySequence,
       dictSet [] ("scene".data) (natOfDigits (pyStrip (c7ValueAt c7Toks 1)))) :=
  ⟨by decide, rfl,
   by
     refine ⟨by decide, by decide, ?_, ?_⟩ <;>
       simp [c7MeaningfulAt, c7Candidates, c7ValueAt, isMeaningful, wordRuns, isWordChar,
         pyIsAlnum, pyIsAlpha, pyIsDigit, pyStrip, pyLStrip, pyRStrip, pyIsSpace, c7Consumed,
         c7Toks, tyText, tyPath, tyDate, tyStudio, tyStudioCode, tyPerformers, tySequence,
           Char.le_def, List.indexOf, List.findIdx, List.findIdx.go, List.getD,
           List.range_succ, List.filter_append, List.filter_cons, List.filter_nil],
   by decide,
   (((C7_bare_scene_exact c7Toks []).2.2 1 (by decide) rfl).2
     (by
       refine ⟨by decide, by decide, ?_, ?_⟩ <;>
         simp [c7MeaningfulAt, c7Candidates, c7ValueAt, isMeaningful, wordRuns, isWordChar,
           pyIsAlnum, pyIsAlpha, pyIsDigit, pyStrip, pyLStrip, pyRStrip, pyIsSpace, c7Consumed,
           c7Toks, tyText, tyPath, tyDate, tyStudio, tyStudioCode, tyPerformers, tySequence,
           Char.le_def, List.indexOf, List.findIdx, List.findIdx.go, List.getD,
           List.range_succ, List.filter_append, List.filter_cons, List.filter_nil])).2
     (by decide)⟩

/-! ## Performer matching

Embedding of src/modules/performer_matcher.py.  Each of the six
hardcoded name-shape regexes is abstracted as a boolean matcher paired
with its separator type (the loop uses the match object only as a gate;
name extraction re-splits the value itself), and the non-performer word
set is the parameter `stop`. -/

/-- Python `str.split()` with no arguments: maximal non-whitespace runs. -/
def pySplitWs : Str → List Str
  | [] => []
  | c :: rest =>
    if hsp : pyIsSpace c then pySplitWs rest
    else
      let run := (c :: rest).takeWhile (fun d => !pyIsSpace d)
      let rest' := (c :: rest).dropWhile (fun d => !pyIsSpace d)
      have : rest'.length < rest.length + 1 := by
        have hr : rest' = rest.dropWhile (fun d => !pyIsSpace d) := by
          simp [rest', List.dropWhile_cons, hsp]
        have hle := (List.dropWhile_suffix (fun d => !pyIsSpace d) (l := rest)).length_le
        rw [hr]
        omega
      run :: pySplitWs rest'
termination_by s => s.length


/-- The ampersand alternative of the split delimiter
`\s+(?:and|\x26)\s+`, applied after the leading whitespace. -/
def matchAmpTail (r1 : Str) : Option Str :=
  match r1 with
  | '&' :: rest2 =>
    if rest2.takeWhile pyIsSpace = [] then none else some (rest2.dropWhile pyIsSpace)
  | _ => none

/-- The `and`-or-ampersand alternatives of the split delimiter, applied
after the leading whitespace (case-insensitive `and`). -/
def matchAndTail (r1 : Str) : Option Str :=
  match r1 with
  | a :: n :: d :: rest =>
    if pyLower [a, n, d] = "and".data then
      if rest.takeWhile pyIsSpace = [] then matchAmpTail r1
      else some (rest.dropWhile pyIsSpace)
    else matchAmpTail r1
  | _ => matchAmpTail r1

/-- Try the whole delimiter `\s+(?:and|\x26)\s+` at the head of the
string, returning the remainder after it. -/
def matchAndAmpAt (s : Str) : Option Str :=
  if s.takeWhile pyIsSpace = [] then none
  else matchAndTail (s.dropWhile pyIsSpace)

theorem matchAmpTail_len {r1 rem : Str} (h : matchAmpTail r1 = some rem) :
    rem.length < r1.length := by
  unfold matchAmpTail at h
  split at h
  next rest2 =>
    split at h
    next => simp at h
    next =>
      injection h with h
      subst h
      have := (List.dropWhile_suffix pyIsSpace (l := rest2)).length_le
      simp
      omega
  next => simp at h

theorem matchAndTail_len {r1 rem : Str} (h : matchAndTail r1 = some rem) :
    rem.length < r1.length := by
  unfold matchAndTail at h
  split at h
  next a n d rest =>
    split at h
    next =>
      split at h
      next => exact matchAmpTail_len h
      next =>
        injection h with h
        subst h
        have := (List.dropWhile_suffix pyIsSpace (l := rest)).length_le
        simp
        omega
    next => exact matchAmpTail_len h
  next => exact matchAmpTail_len h

theorem matchAndAmpAt_len {s rem : Str} (h : matchAndAmpAt s = some rem) :
    rem.length < s.length := by
  unfold matchAndAmpAt at h
  split at h
  next => simp at h
  next hne =>
    have h1 := matchAndTail_len h
    have h2 : (s.dropWhile pyIsSpace).length < s.length := by
      cases s with
      | nil => simp at hne
      | cons c cs =>
        rw [List.takeWhile_cons] at hne
        by_cases hc : pyIsSpace c = true
        · rw [List.dropWhile_cons, if_pos hc]
          have := (List.dropWhile_suffix pyIsSpace (l := cs)).length_le
          simp
          omega
        · rw [if_neg hc] at hne
          exact absurd rfl hne
    omega

/-- Python `re.split` on `\s+(?:and|\x26)\s+`: accumulate the current
piece (reversed) and split at each delimiter occurrence. -/
def splitAndAmpGo (acc : Str) : Str → List Str
  | [] => [acc.reverse]
  | c :: rest =>
    if pyIsSpace c then
      match h : matchAndAmpAt (c :: rest) with
      | some rem =>
        have : rem.length < rest.length + 1 := matchAndAmpAt_len h
        acc.reverse :: splitAndAmpGo [] rem
      | none => splitAndAmpGo (c :: acc) rest
    else splitAndAmpGo (c :: acc) rest
termination_by s => s.length

def splitAndAmp (s : Str) : List Str := splitAndAmpGo [] s

/-- Python `re.split` on `,\s*`. -/
def splitCommaWsGo (acc : Str) : Str → List Str
  | [] => [acc.reverse]
  | c :: rest =>
    if c = ',' then
      have : (rest.dropWhile pyIsSpace).length < rest.length + 1 := by
        have := (List.dropWhile_suffix pyIsSpace (l := rest)).length_le
        omega
      acc.reverse :: splitCommaWsGo [] (rest.dropWhile pyIsSpace)
    else splitCommaWsGo (c :: acc) rest
termination_by s => s.length

def splitCommaWs (s : Str) : List Str := splitCommaWsGo [] s

/-- ASCII `str.istitle`: every cased character at a word start is upper
case and every cased character after a cased character is lower case,
with at least one cased character. -/
def pyIsTitle (s : Str) : Bool := go s false false
where
  go : Str → Bool → Bool → Bool
    | [], _, seen => seen
    | c :: rest, prevCased, seen =>
      if ('A' ≤ c ∧ c ≤ 'Z') then
        if prevCased then false else go rest true true
      else if ('a' ≤ c ∧ c ≤ 'z') then
        if prevCased then go rest true true else false
      else go rest false seen

/-- `PerformerMatcher._extract_performer_names` (the match object is
unused; extraction re-splits the value by separator type). -/
def extractPerformerNames (sep : Str) (originalValue : Str) : List Str :=
  if sep = "and".data ∨ sep = ['&'] then
    if originalValue.contains ',' then
      match splitAndAmp originalValue with
      | p0 :: p1 :: _ =>
        ((splitCommaWs p0).map pyStrip).filter (fun n => !n.isEmpty) ++ [pyStrip p1]
      | _ => []
    else
      match splitAndAmp originalValue with
      | p0 :: p1 :: _ => [pyStrip p0, pyStrip p1]
      | _ => []
  else ((splitCommaWs originalValue).map pyStrip).filter (fun n => !n.isEmpty)

/-- `PerformerMatcher._validate_performer_names`: at least two names, no
stop word, word lengths 2 to 20; the capitalization count is computed but
both final branches return `True`. -/
def validatePerformerNames (stop : List Str) (names : List Str) (originalToken : Str) : Bool :=
  if names.length < 2 then false
  else
    let allWords := names.flatMap pySplitWs
    if allWords.any (fun w => stop.contains (pyLower w)) then false
    else if allWords.any (fun w => w.length < 2 || 20 < w.length) then false
    else
      let originalWords := pySplitWs (pyStrip originalToken)
      let capCount := (originalWords.filter
        (fun w => pyIsTitle w && !(w = "and".data) && !(w = ['&']))).length
      let minCap := max 1 (names.length / 2)
      if minCap ≤ capCount then true else true

/-- The pattern loop of `PerformerMatcher._is_performer_pattern`, over the
abstracted matcher/separator pairs. -/
def performerLoop (stop : List Str) (value originalToken : Str) :
    List ((Str → Bool) × Str) → Bool
  | [] => false
  | (m, sep) :: rest =>
    if m value then
      if validatePerformerNames stop (extractPerformerNames sep value) originalToken then true
      else performerLoop stop value originalToken rest
    else performerLoop stop value originalToken rest

/-- `PerformerMatcher._is_performer_pattern`. -/
def isPerformerPattern (stop : List Str) (patterns : List ((Str → Bool) × Str))
    (tokenValue originalToken : Str) : Bool :=
  performerLoop stop (pyStrip tokenValue) originalToken patterns

/-- C8: the matcher accepts a token exactly when some pattern matches the
stripped value and the names extracted for its separator type pass
validation; validation is independent of the original token (the
capitalization count is computed but both final branches return `True`),
and it succeeds exactly when there are at least two names, no word is a
stop word, and every word is 2 to 20 characters long. -/
theorem C8_performer_acceptance (stop : List Str) (patterns : List ((Str → Bool) × Str))
    (tokenValue originalToken : Str) (names : List Str) (orig1 orig2 : Str) :
    (isPerformerPattern stop patterns tokenValue originalToken = true ↔
      ∃ p ∈ patterns, p.1 (pyStrip tokenValue) = true ∧
        validatePerformerNames stop (extractPerformerNames p.2 (pyStrip tokenValue))
          originalToken = true) ∧
    (validatePerformerNames stop names orig1 = validatePerformerNames stop names orig2) ∧
    (validatePerformerNames stop names orig1 = true ↔
      (2 ≤ names.length ∧
        ∀ w ∈ names.flatMap pySplitWs,
          stop.contains (pyLower w) = false ∧ 2 ≤ w.length ∧ w.length ≤ 20)) := by
  have hval : ∀ (ns : List Str) (ot : Str),
      validatePerformerNames stop ns ot =
        (decide (2 ≤ ns.length) &&
         !(ns.flatMap pySplitWs).any (fun w => stop.contains (pyLower w)) &&
         !(ns.flatMap pySplitWs).any (fun w => w.length < 2 || 20 < w.length)) := by
    intro ns ot
    rw [validatePerformerNames]
    by_cases h1 : ns.length < 2
    · rw [if_pos h1]
      have hd : decide (2 ≤ ns.length) = false := by
        simp
        omega
      rw [hd]
      simp
    · rw [if_neg h1]
      have hd : decide (2 ≤ ns.length) = true := by
        simp
        omega
      by_cases h2 : (ns.flatMap pySplitWs).any (fun w => stop.contains (pyLower w)) = true
      · rw [if_pos h2, h2]
        simp
      · have h2' : (ns.flatMap pySplitWs).any (fun w => stop.contains (pyLower w)) = false := by
          cases hx : (ns.flatMap pySplitWs).any (fun w => stop.contains (pyLower w))
          · rfl
          · exact absurd hx h2
        rw [if_neg h2]
        by_cases h3 : (ns.flatMap pySplitWs).any (fun w => w.length < 2 || 20 < w.length) = true
        · rw [if_pos h3, h2', h3]
          simp
        · have h3' :
              (ns.flatMap pySplitWs).any (fun w => w.length < 2 || 20 < w.length) = false := by
            cases hx : (ns.flatMap pySplitWs).any (fun w => w.length < 2 || 20 < w.length)
            · rfl
            · exact absurd hx h3
          rw [if_neg h3, ite_self, hd, h2', h3']
          simp
  refine ⟨?_, ?_, ?_⟩
  · rw [isPerformerPattern]
    induction patterns with
    | nil => simp [performerLoop]
    | cons p rest ih =>
      rcases p with ⟨m, sep⟩
      rw [performerLoop]
      by_cases hm : m (pyStrip tokenValue) = true
      · rw [if_pos hm]
        by_cases hv : validatePerformerNames stop
            (extractPerformerNames sep (pyStrip tokenValue)) originalToken = true
        · rw [if_pos hv]
          simp only [true_iff]
          exact ⟨(m, sep), List.mem_cons_self _ _, hm, hv⟩
        · rw [if_neg hv, ih]
          constructor
          · rintro ⟨q, hq, hq1, hq2⟩
            exact ⟨q, List.mem_cons_of_mem _ hq, hq1, hq2⟩
          · rintro ⟨q, hq, hq1, hq2⟩
            rcases List.mem_cons.mp hq with rfl | hq'
            · exact absurd hq2 hv
            · exact ⟨q, hq', hq1, hq2⟩
      · rw [if_neg hm, ih]
        constructor
        · rintro ⟨q, hq, hq1, hq2⟩
          exact ⟨q, List.mem_cons_of_mem _ hq, hq1, hq2⟩
        · rintro ⟨q, hq, hq1, hq2⟩
          rcases List.mem_cons.mp hq with rfl | hq'
          · exact absurd hq1 hm
          · exact ⟨q, hq', hq1, hq2⟩
  · rw [hval, hval]
  · rw [hval]
    simp only [Bool.and_eq_true, decide_eq_true_eq, Bool.not_eq_true']
    rw [List.any_eq_false, List.any_eq_false]
    constructor
    · rintro ⟨⟨hlen, hstop⟩, hrange⟩
      refine ⟨hlen, ?_⟩
      intro w hw
      have hs := hstop w hw
      have hr := hrange w hw
      simp at hr
      exact ⟨Bool.eq_false_iff.mpr hs, by omega, by omega⟩
    · rintro ⟨hlen, hall⟩
      refine ⟨⟨hlen, ?_⟩, ?_⟩
      · intro w hw
        exact Bool.eq_false_iff.mp (hall w hw).1
      · intro w hw
        have := hall w hw
        simp
        omega

/-! ## The parse pipeline's existing-studio glue

From `FilenameParser.parse` (src/yansa.py): after the three
studio-matching passes and before studio-code finding, an externally
provided studio value is applied.  `parseBeforeCodes` composes the
embedded stages 2 to 4.75 and the glue, yielding exactly the result that
is handed to `StudioCodeFinder.process` (pre-tokenization, a separate
module, is reflected by taking the cleaned string directly; path
processing is disabled in the source). -/

/-- The `existing_value` block of `FilenameParser.parse` (lines 216-222):
`str(existing_studio).strip()` when provided; when non-empty, it is
written into the studio field if the current studio strips to nothing or
lowers to `unknown`. -/
def applyExistingStudio (existing : Option Str) (r : ParseResult) : ParseResult :=
  let existingValue :=
    match existing with
    | some s => pyStrip s
    | none => []
  if existingValue = [] then r
  else
    let current := pyStrip (r.studio.getD [])
    if current = [] ∨ pyLower current = "unknown".data then
      { r with studio := some existingValue }
    else r

/-- Pipeline steps 2 to 4.75 of `FilenameParser.parse` followed by the
existing-studio glue: the result at the moment studio-code matching runs. -/
def parseBeforeCodes (junk ts : List Str) (dateRules : List DateRule)
    (studios : List (Str × Str)) (exactOnly : List Str) (existing : Option Str)
    (original cleaned : Str) : Option ParseResult :=
  match dateProcess dateRules (Tokenizer.tokenize junk ts original cleaned) with
  | none => none
  | some r1 =>
    some (applyExistingStudio existing
      (processPartialMatchFallback studios exactOnly
        (processDashFallback studios (studioProcess studios r1))))

/-- C3, amended: the glue's `unknown` check applies to the studio already
in the result, not to the provided value.  A non-empty existing value
(including the literal `unknown`) fills an empty studio field; a
discovered studio that lowers to `unknown` is overwritten by the existing
value; a discovered studio that does not lower to `unknown` is kept; an
existing value that strips to nothing has no effect. -/
theorem C3_existing_studio_glue (existing : Option Str) (r : ParseResult)
    (e : Str) (hex : existing = some e) :
    (¬ pyStrip e = [] → pyStrip (r.studio.getD []) = [] →
      (applyExistingStudio existing r).studio = some (pyStrip e)) ∧
    (¬ pyStrip e = [] → pyLower (pyStrip (r.studio.getD [])) = "unknown".data →
      (applyExistingStudio existing r).studio = some (pyStrip e)) ∧
    (¬ pyStrip e = [] → ¬ pyStrip (r.studio.getD []) = [] →
      ¬ pyLower (pyStrip (r.studio.getD [])) = "unknown".data →
      applyExistingStudio existing r = r) ∧
    (pyStrip e = [] → applyExistingStudio existing r = r) := by
  subst hex
  refine ⟨?_, ?_, ?_, ?_⟩
  · intro hne hcur
    rw [applyExistingStudio]
    simp only
    rw [if_neg hne, if_pos (Or.inl hcur)]
  · intro hne hunk
    rw [applyExistingStudio]
    simp only
    rw [if_neg hne, if_pos (Or.inr hunk)]
  · intro hne hcur hunk
    rw [applyExistingStudio]
    simp only
    rw [if_neg hne, if_neg ?_]
    intro hor
    rcases hor with h | h
    · exact hcur h
    · exact hunk h
  · intro he
    rw [applyExistingStudio]
    simp only
    rw [if_pos he]

/-- Closed instance of the amended C3 theorem: `unknown` as the provided
studio is written into an empty studio field, and a discovered studio
reading `Unknown` is overwritten by a provided `Acme`. -/
theorem C3_existing_studio_glue_witness :
    ((¬ pyStrip ("unknown".data) = []) ∧
    (pyStrip ((({ original := "x".data,
                  cleaned := "x".data,
                  pattern := none,
                  tokens := none,
                  studio := none,
                  title := none,
                  sequence := none,
                  group := none,
                  studio_code := none } : ParseResult)).studio.getD []) = []) ∧
    (applyExistingStudio (some ("unknown".data))
      ({ original := "x".data,
         cleaned := "x".data,
         pattern := none,
         tokens := none,
         studio := none,
         title := none,
         sequence := none,
         group := none,
         studio_code := none } : ParseResult)).studio = some (pyStrip ("unknown".data))) ∧
    ((¬ pyStrip ("Acme".data) = []) ∧
    (pyLower (pyStrip ((({ original := "x".data,
                           cleaned := "x".data,
                           pattern := none,
                           tokens := none,
                           studio := some ("Unknown".data),
                           title := none,
                           sequence := none,
                           group := none,
                           studio_code := none } : ParseResult)).studio.getD [])) =
      "unknown".data) ∧
    (applyExistingStudio (some ("Acme".data))
      ({ original := "x".data,
         cleaned := "x".data,
         pattern := none,
         tokens := none,
         studio := some ("Unknown".data),
         title := none,
         sequence := none,
         group := none,
         studio_code := none } : ParseResult)).studio = some (pyStrip ("Acme".data))) :=
  ⟨⟨by decide, rfl,
   (C3_existing_studio_glue (some ("unknown".data))
     ({ original := "x".data,
        cleaned := "x".data,
        pattern := none,
        tokens := none,
        studio := none,
        title := none,
        sequence := none,
        group := none,
        studio_code := none } : ParseResult) ("unknown".data) rfl).1 (by decide) rfl⟩,
   ⟨by decide, by decide,
   (C3_existing_studio_glue (some ("Acme".data))
     ({ original := "x".data,
        cleaned := "x".data,
        pattern := none,
        tokens := none,
        studio := some ("Unknown".data),
        title := none,
        sequence := none,
        group := none,
        studio_code := none } : ParseResult) ("Acme".data) rfl).2.1 (by decide)
          (by decide)⟩⟩

/-- C3 counterexample to the original claim's `unknown` clause: with no
studio found in `Hello World`, providing `unknown` as the existing studio
changes the result (the studio field becomes `unknown`), whereas
providing nothing leaves it unset — the literal `unknown` is not treated
as unset. -/
theorem C3_counterexample :
    (parseBeforeCodes [] [] [] [] [] (some ("unknown".data))
      ("Hello World".data) ("Hello World".data)).map ParseResult.studio =
      some (some ("unknown".data)) ∧
    (parseBeforeCodes [] [] [] [] [] none
      ("Hello World".data) ("Hello World".data)).map ParseResult.studio = some none := by
  have htok :
      Tokenizer.tokenize [] [] ("Hello World".data) ("Hello World".data) =
      { original := "Hello World".data
        cleaned := "Hello World".data
        pattern := some ("\x7btoken0\x7d".data)
        tokens := some [⟨"Hello World".data, tyText, 0⟩] } := by
    simp [Tokenizer.tokenize, Tokenizer.extractPath, Tokenizer.extractPath.findLastSep,
      Tokenizer.extractTokens, Tokenizer.segmentize, Tokenizer.takeUntil,
      Tokenizer.segTokens, Tokenizer.dashPieces, Tokenizer.findDash, Tokenizer.plainTokens,
      Tokenizer.generatePattern, Tokenizer.patternGo, Tokenizer.plainParts, Tokenizer.junkAt,
      Tokenizer.isJunkToken, pyStrip, pyLStrip, pyRStrip, pyIsSpace, Tokenizer.spaces,
      phChars, tokenChars, natChars_lt10, Tokenizer.isSegDelim, Tokenizer.trimToken,
      Tokenizer.trimF, Trimmer.trim, Trimmer.trimLoop, Trimmer.onePass, Trimmer.prefixPass,
      Trimmer.suffixPass, tyText]
  constructor <;>
    simp [parseBeforeCodes, htok, dateProcess, findDates, dateSearch,
      studioProcess, studioMatchesGo, assocGet, listTruthy, optTruthy,
      processDashFallback, dashCandidates, processPartialMatchFallback, partialCandidates,
      partialScan, applyExistingStudio, pyStrip, pyLStrip, pyRStrip, pyIsSpace, pyLower,
      tyText, tyPath]
